import Mathlib

/-!
Shallow embedding of `proxy_checker.py` (Morasami/Proxy-Checker).

Strings are modelled as `List Char`.  Python's `str.strip()` and the regex
class `\d` are modelled over their ASCII parts (the repository only ever
feeds ASCII proxy lists through these functions); `urllib.parse.urlparse`
is modelled for the URL shapes `parse_proxy_url` inspects (scheme, netloc,
hostname, port), without the IPv6 bracket syntax and without underscore
digit grouping in ports, both of which CPython turns into the same
fall-through behaviour that the model's error value produces.
-/

namespace ProxyChecker

/-- Characters of a Lean string literal, used to write concrete inputs. -/
def chars (s : String) : List Char := s.data

/-- The ASCII whitespace removed by Python `str.strip()`:
space, tab, newline, carriage return, vertical tab, form feed. -/
def pySpace (c : Char) : Bool :=
  c = ' ' || c = '\t' || c = '\n' || c = '\r' || c = '\x0b' || c = '\x0c'

/-- Python `str.strip()`: drop whitespace from both ends. -/
def pyStrip (s : List Char) : List Char :=
  ((s.dropWhile pySpace).reverse.dropWhile pySpace).reverse

/-- Python `pat.startswith` / prefix test on character lists. -/
def startsWithChars : List Char → List Char → Bool
  | [], _ => true
  | _ :: _, [] => false
  | p :: ps, c :: cs => p = c && startsWithChars ps cs

/-- Python `pat in s` substring containment. -/
def containsSub (pat : List Char) : List Char → Bool
  | [] => startsWithChars pat []
  | c :: cs => startsWithChars pat (c :: cs) || containsSub pat cs

/-- `int(s)` for a string of ASCII digits (most significant first). -/
def natOfDigits (s : List Char) : Nat :=
  s.foldl (fun a c => 10 * a + (c.toNat - 48)) 0

/-- Fuel-driven core of decimal printing (`str(n)` in Python). -/
def natCharsCore : Nat → Nat → List Char
  | 0, _ => []
  | fuel + 1, n =>
    if n < 10 then [Nat.digitChar n]
    else natCharsCore fuel (n / 10) ++ [Nat.digitChar (n % 10)]

/-- Python `str(n)` for a natural number: canonical decimal numeral. -/
def natChars (n : Nat) : List Char := natCharsCore (n + 1) n

/-- Splitting on a separator character (`str.split(sep)` semantics:
`n+1` pieces for `n` separators, empty pieces kept). -/
def splitOnChar (sep : Char) : List Char → List (List Char)
  | [] => [[]]
  | c :: cs =>
    if c = sep then [] :: splitOnChar sep cs
    else
      match splitOnChar sep cs with
      | [] => [[c]]
      | l :: ls => (c :: l) :: ls

/-- `text.replace('\r\n', '\n')`: left-to-right, non-overlapping. -/
def replCRLF : List Char → List Char
  | [] => []
  | [c] => [c]
  | c1 :: c2 :: cs =>
    if c1 = '\r' ∧ c2 = '\n' then '\n' :: replCRLF cs
    else c1 :: replCRLF (c2 :: cs)

/-- `text.replace('\r', '\n')`. -/
def replCR (s : List Char) : List Char :=
  s.map fun c => if c = '\r' then '\n' else c

/-- `text.replace('\r\n', '\n').replace('\r', '\n')`, the newline
normalisation used by `extract_proxies_from_text` (and performed by
Python's universal-newline text mode when the output file is read back). -/
def pyNormalizeNewlines (s : List Char) : List Char := replCR (replCRLF s)

/-! ## `ProxyTester.parse_proxy_url` (src/proxy_checker.py lines 133-154) -/

/-- The scheme list of `ProxyType`: `[HTTP, HTTPS, SOCKS4, SOCKS5]`. -/
def acceptedSchemes : List (List Char) :=
  [chars "http", chars "https", chars "socks4", chars "socks5"]

/-- Maximal run of ASCII digits and the remainder. -/
def spanDigits (s : List Char) : List Char × List Char :=
  (s.takeWhile Char.isDigit, s.dropWhile Char.isDigit)

/-- The regex match `re.match(r'^(\d{1,3}\.\d{1,3}\.\d{1,3}\.\d{1,3}):(\d{1,5})$', s)`
returning the two groups (ip, port).  Since `.` and `:` are not digits, the
regex engine's greedy matching with backtracking accepts exactly the strings
whose maximal digit runs between the separators have the stated lengths, so
the match is computed with maximal digit runs. -/
def ipPortMatch (s : List Char) : Option (List Char × List Char) :=
  let (o1, r1) := spanDigits s
  if 1 ≤ o1.length ∧ o1.length ≤ 3 then
    match r1 with
    | [] => none
    | sep1 :: t1 =>
      if sep1 = '.' then
        let (o2, r2) := spanDigits t1
        if 1 ≤ o2.length ∧ o2.length ≤ 3 then
          match r2 with
          | [] => none
          | sep2 :: t2 =>
            if sep2 = '.' then
              let (o3, r3) := spanDigits t2
              if 1 ≤ o3.length ∧ o3.length ≤ 3 then
                match r3 with
                | [] => none
                | sep3 :: t3 =>
                  if sep3 = '.' then
                    let (o4, r4) := spanDigits t3
                    if 1 ≤ o4.length ∧ o4.length ≤ 3 then
                      match r4 with
                      | [] => none
                      | sep4 :: t4 =>
                        if sep4 = ':' then
                          let (p, r5) := spanDigits t4
                          if 1 ≤ p.length ∧ p.length ≤ 5 ∧ r5 = [] then
                            some (o1 ++ '.' :: o2 ++ '.' :: o3 ++ '.' :: o4, p)
                          else none
                        else none
                    else none
                  else none
              else none
            else none
        else none
      else none
  else none

/-- An ASCII letter (CPython checks `url[0]` is one before accepting a
scheme). -/
def isAsciiAlpha (c : Char) : Bool :=
  (65 ≤ c.toNat && c.toNat ≤ 90) || (97 ≤ c.toNat && c.toNat ≤ 122)

/-- CPython scheme characters: ASCII letters, digits, `+`, `-`, `.`. -/
def schemeChar (c : Char) : Bool :=
  isAsciiAlpha c || (48 ≤ c.toNat && c.toNat ≤ 57) || c = '+' || c = '-' || c = '.'

/-- Break a string at its first `:`; `none` when there is no colon. -/
def breakColon : List Char → Option (List Char × List Char)
  | [] => none
  | c :: cs =>
    if c = ':' then some ([], cs)
    else
      match breakColon cs with
      | none => none
      | some (a, b) => some (c :: a, b)

/-- The part of a netloc after its last `@` (CPython `netloc.rpartition('@')`). -/
def afterLastAt (s : List Char) : List Char :=
  (s.reverse.takeWhile (· ≠ '@')).reverse

/-- What `parse_proxy_url` reads off `urllib.parse.urlparse(s)`:
`scheme` (lowercased; `[]` when the string has no valid scheme prefix),
`hostname` (lowercased; `none` when empty or absent), and `port`
(`.error ()` models the `ValueError` that the `.port` property raises for a
non-numeric or out-of-range port, which the caller's `except ValueError`
turns into a fall-through; `.ok none` is an absent port). -/
structure PyUrl where
  scheme : List Char
  hostname : Option (List Char)
  port : Except Unit (Option Nat)

/-- Model of CPython `urllib.parse.urlparse` restricted to the fields
`parse_proxy_url` inspects.  The IPv6 bracket syntax is not modelled: a
bracketed netloc is mapped to the error value (CPython would either parse a
bracketed host, which no claim exercises, or raise, which the caller
catches into the same fall-through). -/
def pyUrlparse (s : List Char) : PyUrl :=
  let schemeRest : List Char × List Char :=
    match breakColon s with
    | some (a, b) =>
      if a ≠ [] ∧ a.head?.any isAsciiAlpha ∧ a.all schemeChar then
        (a.map Char.toLower, b)
      else ([], s)
    | none => ([], s)
  let scheme := schemeRest.1
  let rest := schemeRest.2
  if startsWithChars (chars "//") rest then
    let netloc := (rest.drop 2).takeWhile fun c => ¬ (c = '/' ∨ c = '?' ∨ c = '#')
    let hostinfo := afterLastAt netloc
    if '[' ∈ hostinfo ∨ ']' ∈ hostinfo then
      { scheme := scheme, hostname := none, port := .error () }
    else
      let host := hostinfo.takeWhile (· ≠ ':')
      let portPart := hostinfo.dropWhile (· ≠ ':')
      let hostname := if host = [] then none else some (host.map Char.toLower)
      let port : Except Unit (Option Nat) :=
        match portPart with
        | [] => .ok none
        | _ :: p =>
          if p = [] then .ok none
          else if p.all Char.isDigit then
            if natOfDigits p ≤ 65535 then .ok (some (natOfDigits p)) else .error ()
          else .error ()
      { scheme := scheme, hostname := hostname, port := port }
  else
    { scheme := scheme, hostname := none, port := .ok none }

/-- `ProxyTester.parse_proxy_url`: canonicalise one candidate string to
`(host, port, proxy_type)` or `none`.  The URL branch runs only when the
string contains `://`; when it does not return, control falls through to
the strict IPv4-literal regex branch, exactly as in the source. -/
def parse_proxy_url (proxy_str : List Char) : Option (List Char × List Char × List Char) :=
  let s := pyStrip proxy_str
  if s = [] then none
  else
    let urlBranch : Option (List Char × List Char × List Char) :=
      if containsSub (chars "://") s then
        let parsed := pyUrlparse s
        match parsed.port with
        | .error _ => none
        | .ok portOpt =>
          match parsed.hostname, portOpt with
          | some h, some p =>
            if p ≠ 0 then
              let proxy_type := parsed.scheme.map Char.toLower
              if proxy_type ∈ acceptedSchemes then some (h, natChars p, proxy_type)
              else none
            else none
          | _, _ => none
      else none
    match urlBranch with
    | some r => some r
    | none =>
      match ipPortMatch s with
      | none => none
      | some (ip, port_str) =>
        let port := natOfDigits port_str
        if (splitOnChar '.' ip).all (fun o => natOfDigits o ≤ 255) ∧ 1 ≤ port ∧ port ≤ 65535
        then some (ip, natChars port, chars "http")
        else none

/-! ## `ProxyTester.extract_proxies_from_text` (lines 156-166) -/

/-- The body of the extraction loop for one raw line: strip, skip blank and
`#` lines, parse, and add the canonical `host:port` key to the set. -/
def extractStep (acc : Finset (List Char)) (rawLine : List Char) : Finset (List Char) :=
  let line := pyStrip rawLine
  if line = [] ∨ line.head? = some '#' then acc
  else
    match parse_proxy_url line with
    | some (h, p, _) => insert (h ++ ':' :: p) acc
    | none => acc

/-- The extraction loop over a list of raw lines. -/
def extractFromLines (lines : List (List Char)) : Finset (List Char) :=
  lines.foldl extractStep ∅

/-- The skip condition `if not line or line.startswith('#')` of the
extraction loop, on the raw line. -/
def skippedLine (l : List Char) : Bool :=
  (pyStrip l).isEmpty || ((pyStrip l).head? == some '#')

/-- `ProxyTester.extract_proxies_from_text`: normalise line endings, split on
newlines, skip blank and `#` lines, parse each remaining line and collect the
canonical `host:port` keys into a set. -/
def extract_proxies_from_text (text : List Char) : Finset (List Char) :=
  extractFromLines (splitOnChar '\n' (pyNormalizeNewlines text))

/-! ## `ProxyTester.fetch_proxy_list`, structured branch (lines 176-188) -/

/-- One element of a JSON array as `fetch_proxy_list` dispatches on it: a
string, a dict carrying `ip` and `port` fields (their values shown as the
f-string `f"{item['ip']}:{item['port']}"` renders them), or anything else. -/
inductive JsonItem where
  | str (s : List Char)
  | ipPort (ip port : List Char)
  | other

/-- The candidate keys `fetch_proxy_list` collects from a JSON array: a
string item goes through `parse_proxy_url`, a dict item with `ip`/`port` is
keyed directly with no validation, anything else is skipped. -/
def keysFromJsonList (items : List JsonItem) : Finset (List Char) :=
  items.foldl
    (fun acc it =>
      match it with
      | .str s =>
        match parse_proxy_url s with
        | some (h, p, _) => insert (h ++ ':' :: p) acc
        | none => acc
      | .ipPort ip port => insert (ip ++ ':' :: port) acc
      | .other => acc)
    ∅

/-! ## `ProxyTester._sort_and_finalize_proxies_file` (lines 343-365) -/

/-- Python `str` comparison on the keys: code-point lexicographic order. -/
def ltChars : List Char → List Char → Bool
  | [], [] => false
  | [], _ :: _ => true
  | _ :: _, [] => false
  | a :: as, b :: bs => if a < b then true else if b < a then false else ltChars as bs

/-- Ordered duplicate-free insertion for `ltChars`. -/
def insertKey (x : List Char) : List (List Char) → List (List Char)
  | [] => [x]
  | y :: ys =>
    if x = y then y :: ys
    else if ltChars x y then x :: y :: ys
    else y :: insertKey x ys

/-- `sorted(list(set(xs)))`: the strictly `ltChars`-sorted enumeration of the
distinct elements of `xs`, computed by duplicate-free insertion sort. -/
def sortDedup (xs : List (List Char)) : List (List Char) := xs.foldr insertKey []

/-- The keep condition of the finalize loop: `if line and self.parse_proxy_url(line)`
(a non-`None` parse result is always truthy). -/
def goodLine (l : List Char) : Bool := !l.isEmpty && (parse_proxy_url l).isSome

/-- The list the finalize pass writes back, given the artifact's raw
content: read lines (text mode translates line endings), strip each, keep
the non-empty re-validating ones, deduplicate through a set, sort. -/
def finalizeLines (content : List Char) : List (List Char) :=
  sortDedup (((splitOnChar '\n' (pyNormalizeNewlines content)).map pyStrip).filter goodLine)

/-- Serialise lines back to file content, one `\n` after each line. -/
def joinLines (ls : List (List Char)) : List Char :=
  ls.foldr (fun l acc => l ++ '\n' :: acc) []

/-- `ProxyTester._sort_and_finalize_proxies_file` as a transformation of the
output artifact: `none` is a missing file (`FileNotFoundError` is caught,
logged, and nothing is written), `some c` a file with raw content `c`. -/
def sort_and_finalize_proxies_file : Option (List Char) → Option (List Char)
  | none => none
  | some content => some (joinLines (finalizeLines content))

/-- The artifact content produced by a run that appended exactly the keys
`ws`, in order (`_append_working_proxy_to_file` writes `f"{key}\n"`). -/
def runArtifact (ws : List (List Char)) : List Char := joinLines ws

/-- Strictly sorted in Python's string order. -/
def SortedKeys (l : List (List Char)) : Prop :=
  l.Chain' fun a b => ltChars a b = true

/-- The canonical decimal rendering `a.b.c.d` of four octet values. -/
def ipStr (a b c d : Nat) : List Char :=
  natChars a ++ '.' :: natChars b ++ '.' :: natChars c ++ '.' :: natChars d

/-- The canonical decimal rendering `a.b.c.d:p`. -/
def ipPortStr (a b c d p : Nat) : List Char :=
  ipStr a b c d ++ ':' :: natChars p

/-- A URL string `scheme://host:port` with a decimal port. -/
def urlStr (scheme host : List Char) (p : Nat) : List Char :=
  scheme ++ chars "://" ++ host ++ ':' :: natChars p

/-- A lowercase ASCII letter. -/
def isLowerAlpha (c : Char) : Bool :=
  97 ≤ c.toNat && c.toNat ≤ 122

/-- An unreserved hostname character: lowercase ASCII letter, ASCII digit,
dot or dash. -/
def hostChar (c : Char) : Bool :=
  isLowerAlpha c || (48 ≤ c.toNat && c.toNat ≤ 57) || c = '.' || c = '-'

/-- A character allowed in the written-out schemes the claims quantify
over: lowercase ASCII letter or ASCII digit (the first character must be a
letter). -/
def schemeTailChar (c : Char) : Bool :=
  isLowerAlpha c || c.isDigit

/-! ## `ProxyTester._append_working_proxy_to_file` (lines 220-231)

The method is a coroutine with exactly one suspension point: the membership
test on `written_proxies_this_run` runs before `output_file_lock` is
acquired, and the critical section (file append, set add) contains no
`await`, so it executes atomically once entered.  Each call is therefore a
two-step task: a check step and an append step, interleaved with other
tasks only between the two. -/

/-- Shared state of the append path: the run-local dedupe set and the lines
of the output artifact, in append order. -/
structure AppendState where
  written : List (List Char)
  file : List (List Char)

/-- Where one `_append_working_proxy_to_file` call stands. -/
inductive TaskPhase where
  | start
  | passedCheck
  | done
deriving DecidableEq

/-- One task of the append state machine: its key and its phase. -/
structure AppendTask where
  key : List Char
  phase : TaskPhase

/-- One step of one call: at `start` the membership check runs (an already
recorded key returns at once); at `passedCheck` the critical section appends
the line and records the key. -/
def stepAppend (st : AppendState) (t : AppendTask) : AppendState × AppendTask :=
  match t.phase with
  | .start =>
    if t.key ∈ st.written then (st, { t with phase := .done })
    else (st, { t with phase := .passedCheck })
  | .passedCheck =>
    ({ written := t.key :: st.written, file := st.file ++ [t.key] },
     { t with phase := .done })
  | .done => (st, t)

/-- Run a schedule: each entry names the task that takes its next step. -/
def runSchedule : AppendState × List AppendTask → List Nat → AppendState × List AppendTask
  | s, [] => s
  | (st, ts), i :: rest =>
    match ts[i]? with
    | none => runSchedule (st, ts) rest
    | some t =>
      let (st', t') := stepAppend st t
      runSchedule (st', ts.set i t') rest

/-- A run in which every call completes without interleaving (the behaviour
of the program when each key is tested at most once, the batch being built
from a set): the whole call runs as one step. -/
def appendIfNewAtomic (st : AppendState) (k : List Char) : AppendState :=
  if k ∈ st.written then st
  else { written := k :: st.written, file := st.file ++ [k] }

/-- Sequence of atomic `_append_working_proxy_to_file` calls. -/
def runAppendsAtomic (st : AppendState) (ks : List (List Char)) : AppendState :=
  ks.foldl appendIfNewAtomic st

/-! ## `ProxyTester.test_proxy_connectivity` (lines 233-293)

The three `session.get` calls are modelled by an environment holding each
stage's outcome.  `NetRes.err` collapses `asyncio.TimeoutError`,
`aiohttp.ClientProxyConnectionError`, `aiohttp.ClientError` and the generic
`Exception` handler: all four append an error entry and leave the result
fields as they were, differing only in the error text. -/

/-- One network GET through the proxy: an exception, or a response with a
status code. -/
inductive NetRes where
  | err
  | resp (status : Nat)

/-- Reading `response.json()` in stage 1: an exception, or a body whose
`origin` field is the given string. -/
inductive JsonRes where
  | jsonErr
  | jsonOk (origin : List Char)

/-- Abstract error-list entries (the source appends formatted strings; only
their presence and category matter to the outcome record). -/
inductive ErrTag where
  | httpNet
  | httpStatus (status : Nat)
  | httpJson
  | httpsNet
  | httpsStatus (status : Nat)
  | googleNet
  | googleStatus (status : Nat)

/-- The environment one `test_proxy_connectivity` call runs in: the three
stage outcomes, the stage-1 body, the machine IP learnt by the startup
probe, and the measured latency. -/
structure TestEnv where
  stage1 : NetRes
  body1 : JsonRes
  stage2 : NetRes
  stage3 : NetRes
  machine_ip : Option (List Char)
  latency : ℚ

/-- The result dict of `test_proxy_connectivity`. -/
structure TestOutcome where
  proxy : List Char
  working : Bool
  http_working : Bool
  https_working : Bool
  google_working : Bool
  anonymity : List Char
  latency_ms : Option ℚ
  errors : List ErrTag

/-- The initial result dict (line 234-236). -/
def initOutcome (proxy_ip_port : List Char) : TestOutcome :=
  { proxy := proxy_ip_port, working := false, http_working := false,
    https_working := false, google_working := false,
    anonymity := chars "unknown", latency_ms := none, errors := [] }

/-- `data.get("origin", "").split(",")[0].strip()`. -/
def reportedIpOf (origin : List Char) : List Char :=
  pyStrip (origin.takeWhile (· ≠ ','))

/-- Stage 1: HTTP echo through the proxy (lines 239-261). -/
def stage1Res (env : TestEnv) (proxy_ip_port : List Char) : TestOutcome :=
  let r := initOutcome proxy_ip_port
  match env.stage1 with
  | .err => { r with errors := r.errors ++ [ErrTag.httpNet] }
  | .resp status =>
    let r := { r with latency_ms := some env.latency }
    if status = 200 then
      let r := { r with http_working := true }
      match env.body1 with
      | .jsonErr =>
        { r with errors := r.errors ++ [ErrTag.httpJson], http_working := false }
      | .jsonOk origin =>
        let reported_ip := reportedIpOf origin
        match env.machine_ip with
        | some m =>
          if reported_ip = m then { r with anonymity := chars "transparent" }
          else if containsSub (proxy_ip_port.takeWhile (· ≠ ':')) reported_ip then
            { r with anonymity := chars "anonymous" }
          else { r with anonymity := chars "elite" }
        | none => r
    else { r with errors := r.errors ++ [ErrTag.httpStatus status] }

/-- Stage 2: HTTPS echo, run only when stage 1 left `http_working` true
(lines 263-270).  Its outcome touches `https_working` and `errors` only. -/
def stage2Res (env : TestEnv) (r : TestOutcome) : TestOutcome :=
  if r.http_working then
    match env.stage2 with
    | .err => { r with errors := r.errors ++ [ErrTag.httpsNet] }
    | .resp status =>
      if status = 200 then { r with https_working := true }
      else { r with errors := r.errors ++ [ErrTag.httpsStatus status] }
  else r

/-- Stage 3: connectivity (no-content) check, run only when `http_working`
is true (lines 272-279). -/
def stage3Res (env : TestEnv) (r : TestOutcome) : TestOutcome :=
  if r.http_working then
    match env.stage3 with
    | .err => { r with errors := r.errors ++ [ErrTag.googleNet] }
    | .resp status =>
      if status = 204 then { r with google_working := true }
      else { r with errors := r.errors ++ [ErrTag.googleStatus status] }
  else r

/-- `ProxyTester.test_proxy_connectivity`: the three stages, then
`result["working"] = result["http_working"] and result["google_working"]`
(line 281). -/
def test_proxy_connectivity (env : TestEnv) (proxy_ip_port : List Char) : TestOutcome :=
  let r := stage3Res env (stage2Res env (stage1Res env proxy_ip_port))
  { r with working := r.http_working && r.google_working }

/-! ## `ProgressReporter` (lines 51-91) -/

/-- The counters of `ProgressReporter`. -/
structure Counters where
  tested_count : Nat
  working_count : Nat
  dead_count : Nat

/-- `ProgressReporter.update(is_working)` (lines 61-67): the increments
performed under the lock. -/
def progressUpdate (c : Counters) (is_working : Bool) : Counters :=
  let c := { c with tested_count := c.tested_count + 1 }
  if is_working then { c with working_count := c.working_count + 1 }
  else { c with dead_count := c.dead_count + 1 }

/-- A sequence of `update` calls from a starting state. -/
def runUpdates (c : Counters) (bs : List Bool) : Counters :=
  bs.foldl progressUpdate c

/-- What the ETA field of one progress line can be. -/
inductive Eta where
  | na
  | dots
  | finite (secs : ℚ)

/-- `proxies_per_second` (line 75): `tested / elapsed if elapsed > 0 else 0`. -/
def throughput (tested_count : Nat) (elapsed : ℚ) : ℚ :=
  if elapsed > 0 then (tested_count : ℚ) / elapsed else 0

/-- The ETA computation of `display_progress` (lines 74-82), as a function
of the counters and the elapsed wall-clock time. -/
def displayEta (total_proxies tested_count : Nat) (elapsed : ℚ) : Eta :=
  let pps := throughput tested_count elapsed
  if total_proxies > 0 ∧ tested_count > 0 ∧ pps > 0 then
    let estimated_total_time := (total_proxies : ℚ) / pps
    let remaining_time := estimated_total_time - elapsed
    if remaining_time > 0 then .finite remaining_time else .dots
  else .na

/-! ## Stage lemmas for the test protocol -/

theorem stage2Res_http_working (env : TestEnv) (r : TestOutcome) :
    (stage2Res env r).http_working = r.http_working := by
  unfold stage2Res
  cases h : r.http_working <;> cases env.stage2 <;> simp [h] <;> split <;> rfl

theorem stage2Res_google_working (env : TestEnv) (r : TestOutcome) :
    (stage2Res env r).google_working = r.google_working := by
  unfold stage2Res
  cases h : r.http_working <;> cases env.stage2 <;> simp [h] <;> split <;> rfl

theorem stage2Res_anonymity (env : TestEnv) (r : TestOutcome) :
    (stage2Res env r).anonymity = r.anonymity := by
  unfold stage2Res
  cases h : r.http_working <;> cases env.stage2 <;> simp [h] <;> split <;> rfl

theorem stage3Res_http_working (env : TestEnv) (r : TestOutcome) :
    (stage3Res env r).http_working = r.http_working := by
  unfold stage3Res
  cases h : r.http_working <;> cases env.stage3 <;> simp [h] <;> split <;> rfl

theorem stage3Res_anonymity (env : TestEnv) (r : TestOutcome) :
    (stage3Res env r).anonymity = r.anonymity := by
  unfold stage3Res
  cases h : r.http_working <;> cases env.stage3 <;> simp [h] <;> split <;> rfl

theorem stage3Res_google_congr (env env' : TestEnv) (r r' : TestOutcome)
    (h3 : env.stage3 = env'.stage3) (hh : r.http_working = r'.http_working)
    (hg : r.google_working = r'.google_working) :
    (stage3Res env r).google_working = (stage3Res env' r').google_working := by
  unfold stage3Res
  rw [h3, hh, hg]
  cases h : r'.http_working <;> cases env'.stage3 <;> simp [h, hg] <;> split <;> simp [hg]

theorem stage1Res_stage2_irrel (env : TestEnv) (s2 : NetRes) (p : List Char) :
    stage1Res { env with stage2 := s2 } p = stage1Res env p := by
  cases env
  rfl

/-- C1: the returned outcome satisfies `working == http_working AND
google_working` (HTTP echo stage and connectivity stage), and the HTTPS
stage's outcome never changes `working`. -/
theorem working_eq_http_and_google : ∀ (env : TestEnv) (p : List Char),
    ((test_proxy_connectivity env p).working
      = ((test_proxy_connectivity env p).http_working
          && (test_proxy_connectivity env p).google_working))
    ∧ ∀ s2 : NetRes,
        (test_proxy_connectivity { env with stage2 := s2 } p).working
          = (test_proxy_connectivity env p).working := by
  intro env p
  constructor
  · rfl
  · intro s2
    show ((stage3Res _ (stage2Res _ (stage1Res _ p))).http_working
            && (stage3Res _ (stage2Res _ (stage1Res _ p))).google_working)
        = ((stage3Res _ (stage2Res _ (stage1Res _ p))).http_working
            && (stage3Res _ (stage2Res _ (stage1Res _ p))).google_working)
    rw [stage1Res_stage2_irrel]
    rw [stage3Res_http_working, stage3Res_http_working,
      stage2Res_http_working, stage2Res_http_working]
    rw [stage3Res_google_congr { env with stage2 := s2 } env
      (stage2Res { env with stage2 := s2 } (stage1Res env p))
      (stage2Res env (stage1Res env p)) rfl
      (by rw [stage2Res_http_working, stage2Res_http_working])
      (by rw [stage2Res_google_working, stage2Res_google_working])]

theorem stage1_anonymity_unknown_of (env : TestEnv) (p : List Char)
    (h : (stage1Res env p).http_working = false ∨ env.machine_ip = none) :
    (stage1Res env p).anonymity = chars "unknown" := by
  rcases env with ⟨st1, b1, st2, st3, mip, lat⟩
  cases st1 with
  | err => rfl
  | resp status =>
    by_cases h200 : status = 200
    · cases b1 with
      | jsonErr => simp [stage1Res, initOutcome, h200]
      | jsonOk origin =>
        cases mip with
        | none => simp [stage1Res, initOutcome, h200]
        | some m =>
          exfalso
          rcases h with h | h
          · simp only [stage1Res, initOutcome] at h
            rw [if_pos h200] at h
            split at h
            · simp at h
            · split at h <;> simp at h
          · simp at h
    · simp [stage1Res, initOutcome, h200]

theorem stage1_anonymity_ne (env : TestEnv) (p : List Char)
    (h : (stage1Res env p).anonymity ≠ chars "unknown") :
    (stage1Res env p).http_working = true ∧ env.machine_ip.isSome = true := by
  rcases env with ⟨st1, b1, st2, st3, mip, lat⟩
  cases st1 with
  | err => simp [stage1Res, initOutcome] at h
  | resp status =>
    by_cases h200 : status = 200
    · cases b1 with
      | jsonErr => simp [stage1Res, initOutcome, h200] at h
      | jsonOk origin =>
        cases mip with
        | none => simp [stage1Res, initOutcome, h200] at h
        | some m =>
          refine ⟨?_, rfl⟩
          simp only [stage1Res, initOutcome]
          rw [if_pos h200]
          split
          · rfl
          · split <;> rfl
    · simp [stage1Res, initOutcome, h200] at h

theorem stage1_transparent_iff (env : TestEnv) (p m origin : List Char)
    (hm : env.machine_ip = some m) (hb : env.body1 = .jsonOk origin)
    (hh : (stage1Res env p).http_working = true) :
    ((stage1Res env p).anonymity = chars "transparent" ↔ reportedIpOf origin = m) := by
  rcases env with ⟨st1, b1, st2, st3, mip, lat⟩
  cases hm
  cases hb
  cases st1 with
  | err => simp [stage1Res, initOutcome] at hh
  | resp status =>
    by_cases h200 : status = 200
    · simp only [stage1Res, initOutcome]
      rw [if_pos h200]
      constructor
      · intro ha
        by_contra hne
        rw [if_neg hne] at ha
        split at ha
        · exact absurd (show chars "anonymous" = chars "transparent" from ha) (by decide)
        · exact absurd (show chars "elite" = chars "transparent" from ha) (by decide)
      · intro hr
        rw [if_pos hr]
    · simp [stage1Res, initOutcome, h200] at hh

/-- C8: `anonymity` is other than `unknown` only when the HTTP echo stage
succeeded and the machine IP is known; in that case it is `transparent`
exactly when the reported origin IP equals the machine's own IP; a failed
stage 1 or an unknown machine IP leaves it `unknown`. -/
theorem anonymity_policy : ∀ (env : TestEnv) (p : List Char),
    ((test_proxy_connectivity env p).anonymity ≠ chars "unknown" →
      (test_proxy_connectivity env p).http_working = true ∧ env.machine_ip.isSome = true)
    ∧ (∀ m origin, env.machine_ip = some m → env.body1 = .jsonOk origin →
        (test_proxy_connectivity env p).http_working = true →
        ((test_proxy_connectivity env p).anonymity = chars "transparent"
          ↔ reportedIpOf origin = m))
    ∧ (((test_proxy_connectivity env p).http_working = false ∨ env.machine_ip = none) →
        (test_proxy_connectivity env p).anonymity = chars "unknown") := by
  intro env p
  have ha : (test_proxy_connectivity env p).anonymity = (stage1Res env p).anonymity := by
    show (stage3Res env (stage2Res env (stage1Res env p))).anonymity = _
    rw [stage3Res_anonymity, stage2Res_anonymity]
  have hh : (test_proxy_connectivity env p).http_working = (stage1Res env p).http_working := by
    show (stage3Res env (stage2Res env (stage1Res env p))).http_working = _
    rw [stage3Res_http_working, stage2Res_http_working]
  rw [ha, hh]
  exact ⟨fun h => stage1_anonymity_ne env p h,
    fun m origin hm hb h1 => stage1_transparent_iff env p m origin hm hb h1,
    fun h => stage1_anonymity_unknown_of env p h⟩

/-! ## Progress reporting -/

/-- C9: the ETA arithmetic divides only behind its guards: whenever elapsed
time is not positive, the total is zero, or the computed throughput is zero,
the ETA is reported as unavailable, and a finite ETA is always positive
(never infinite or negative). -/
theorem displayEta_guards : ∀ (total tested : Nat) (elapsed : ℚ),
    ((elapsed ≤ 0 ∨ total = 0 ∨ throughput tested elapsed = 0) →
      displayEta total tested elapsed = Eta.na)
    ∧ (∀ r, displayEta total tested elapsed = Eta.finite r → 0 < r) := by
  intro total tested elapsed
  constructor
  · intro h
    unfold displayEta
    rw [if_neg]
    rintro ⟨ht, _, hp⟩
    rcases h with h | h | h
    · have hz : throughput tested elapsed = 0 := by
        unfold throughput
        rw [if_neg (not_lt.mpr h)]
      rw [hz] at hp
      exact lt_irrefl 0 hp
    · omega
    · rw [h] at hp
      exact lt_irrefl 0 hp
  · intro r hr
    simp only [displayEta] at hr
    split at hr
    · split at hr
      · cases hr
        assumption
      · cases hr
    · cases hr

theorem runUpdates_inv (c : Counters) (bs : List Bool)
    (h : c.tested_count = c.working_count + c.dead_count) :
    (runUpdates c bs).tested_count
      = (runUpdates c bs).working_count + (runUpdates c bs).dead_count := by
  induction bs generalizing c with
  | nil => exact h
  | cons b bs ih =>
    apply ih
    cases b <;> simp [progressUpdate] <;> omega

/-- C10: from the all-zero initial state, after any sequence of `update`
calls `tested == working + dead`, and each `update` increments `tested` by
one and exactly one of `working`/`dead` by one. -/
theorem progress_counters_invariant : ∀ bs : List Bool,
    ((runUpdates ⟨0, 0, 0⟩ bs).tested_count
      = (runUpdates ⟨0, 0, 0⟩ bs).working_count + (runUpdates ⟨0, 0, 0⟩ bs).dead_count)
    ∧ ∀ (c : Counters) (b : Bool),
        (progressUpdate c b).tested_count = c.tested_count + 1
        ∧ (b = true → (progressUpdate c b).working_count = c.working_count + 1
              ∧ (progressUpdate c b).dead_count = c.dead_count)
        ∧ (b = false → (progressUpdate c b).dead_count = c.dead_count + 1
              ∧ (progressUpdate c b).working_count = c.working_count) := by
  intro bs
  refine ⟨runUpdates_inv _ bs rfl, ?_⟩
  intro c b
  cases b <;> simp [progressUpdate]

/-! ## Appends: at most one write per key -/

/-- C7 counterexample: two concurrent `_append_working_proxy_to_file` calls
for the same key, both past the (unlocked) membership check before either
enters the critical section, write the key twice. -/
theorem append_interleave_counterexample :
    ¬ ((runSchedule
          (⟨[], []⟩,
            [⟨chars "1.2.3.4:8080", .start⟩, ⟨chars "1.2.3.4:8080", .start⟩])
          [0, 1, 0, 1]).1.file.count (chars "1.2.3.4:8080") ≤ 1) := by
  decide

theorem runAppendsAtomic_count_le_one (st : AppendState) (ks : List (List Char))
    (h : ∀ k, st.file.count k ≤ 1 ∧ (k ∉ st.written → st.file.count k = 0)) :
    ∀ k, (runAppendsAtomic st ks).file.count k ≤ 1 := by
  induction ks generalizing st with
  | nil => exact fun k => (h k).1
  | cons a ks ih =>
    intro k
    show (runAppendsAtomic (appendIfNewAtomic st a) ks).file.count k ≤ 1
    apply ih
    intro k'
    by_cases hmem : a ∈ st.written
    · simpa [appendIfNewAtomic, hmem] using h k'
    · simp only [appendIfNewAtomic, if_neg hmem]
      constructor
      · rw [List.count_append]
        by_cases hk : k' = a
        · subst hk
          have h0 := (h k').2 hmem
          simp [h0]
        · have h1 := (h k').1
          have h2 : List.count k' [a] = 0 := by
            simp [List.count_cons, hk]
          omega
      · intro hnot
        rw [List.mem_cons] at hnot
        push_neg at hnot
        rw [List.count_append]
        have h2 : List.count k' [a] = 0 := by
          simp [List.count_cons, hnot.1]
        have h3 := (h k').2 hnot.2
        omega

/-- C7 amended: a call whose key is already recorded performs no write, and
when each call for a key runs without another same-key call interleaved
between its check and its append — in particular in the actual run, whose
batch is a deduplicated set with one test per key — the artifact receives
at most one line per key. -/
theorem appendIfNew_once_per_key : ∀ (ks : List (List Char)) (k : List Char),
    ((runAppendsAtomic ⟨[], []⟩ ks).file.count k ≤ 1)
    ∧ (∀ st : AppendState, k ∈ st.written → appendIfNewAtomic st k = st) := by
  intro ks k
  constructor
  · exact runAppendsAtomic_count_le_one ⟨[], []⟩ ks (fun k' => by simp) k
  · intro st hmem
    simp [appendIfNewAtomic, hmem]

/-- C2 counterexample: the hostname key `example.com:8080` enters the
candidate set — through the JSON `ip`/`port` branch of `fetch_proxy_list`
without validation, and equally through the validated URL branch when a
source lists `http://example.com:8080`; if its test succeeds it is
appended to the artifact, but the finalize pass re-validates each line
through `parse_proxy_url`, which rejects a non-IPv4 bare `host:port`, so
the appended key is dropped. -/
theorem finalize_drops_unvalidated_append :
    (chars "example.com:8080")
        ∈ keysFromJsonList [JsonItem.ipPort (chars "example.com") (chars "8080")]
    ∧ (chars "example.com:8080")
        ∈ extract_proxies_from_text (chars "http://example.com:8080")
    ∧ (chars "example.com:8080") ∈ [chars "example.com:8080"]
    ∧ (chars "example.com:8080") ∉ finalizeLines (runArtifact [chars "example.com:8080"]) := by
  decide

/-! ## Decimal numerals -/

theorem natCharsCore_congr : ∀ f g n : Nat, 1 ≤ f → 1 ≤ g → n < 10 ^ f → n < 10 ^ g →
    natCharsCore f n = natCharsCore g n := by
  intro f
  induction f with
  | zero => omega
  | succ f ih =>
    intro g n _ hg hnf hng
    match g, hg with
    | g + 1, _ =>
      by_cases h10 : n < 10
      · simp [natCharsCore, h10]
      · simp only [natCharsCore, if_neg h10]
        congr 1
        have hf1 : 1 ≤ f := by
          by_contra hf0
          have : f = 0 := by omega
          subst this
          simp at hnf
          omega
        have hg1 : 1 ≤ g := by
          by_contra hg0
          have : g = 0 := by omega
          subst this
          simp at hng
          omega
        apply ih _ _ hf1 hg1
        · rw [Nat.div_lt_iff_lt_mul (by omega)]
          calc n < 10 ^ (f + 1) := hnf
            _ = 10 ^ f * 10 := by rw [pow_succ]
        · rw [Nat.div_lt_iff_lt_mul (by omega)]
          calc n < 10 ^ (g + 1) := hng
            _ = 10 ^ g * 10 := by rw [pow_succ]

theorem natChars_eq (n : Nat) :
    natChars n
      = if n < 10 then [Nat.digitChar n]
        else natChars (n / 10) ++ [Nat.digitChar (n % 10)] := by
  by_cases h10 : n < 10
  · simp [natChars, natCharsCore, h10]
  · rw [if_neg h10]
    show natCharsCore (n + 1) n = _
    have step : natCharsCore (n + 1) n
        = natCharsCore n (n / 10) ++ [Nat.digitChar (n % 10)] := by
      conv_lhs => rw [natCharsCore]
      rw [if_neg h10]
    rw [step]
    congr 1
    apply natCharsCore_congr
    · omega
    · omega
    · calc n / 10 < n := Nat.div_lt_self (by omega) (by omega)
        _ < 10 ^ n := Nat.lt_pow_self (by omega) n
    · calc n / 10 < 10 ^ (n / 10) := Nat.lt_pow_self (by omega) _
        _ ≤ 10 ^ (n / 10 + 1) := Nat.pow_le_pow_right (by omega) (by omega)

theorem isDigit_digitChar (d : Nat) (h : d < 10) : (Nat.digitChar d).isDigit = true := by
  interval_cases d <;> decide

theorem toNat_digitChar (d : Nat) (h : d < 10) : (Nat.digitChar d).toNat = 48 + d := by
  interval_cases d <;> decide

theorem natOfDigits_snoc (xs : List Char) (c : Char) :
    natOfDigits (xs ++ [c]) = 10 * natOfDigits xs + (c.toNat - 48) := by
  simp [natOfDigits, List.foldl_append]

theorem natOfDigits_natChars : ∀ n : Nat, natOfDigits (natChars n) = n := by
  intro n
  induction n using Nat.strong_induction_on with
  | _ n ih =>
    rw [natChars_eq]
    by_cases h : n < 10
    · rw [if_pos h]
      show 10 * 0 + ((Nat.digitChar n).toNat - 48) = n
      rw [toNat_digitChar n h]
      omega
    · rw [if_neg h, natOfDigits_snoc,
        ih (n / 10) (Nat.div_lt_self (by omega) (by omega)),
        toNat_digitChar (n % 10) (Nat.mod_lt n (by omega))]
      omega

theorem natChars_ne_nil (n : Nat) : natChars n ≠ [] := by
  rw [natChars_eq]
  split <;> simp

theorem isDigit_of_mem_natChars : ∀ n : Nat, ∀ c ∈ natChars n, c.isDigit = true := by
  intro n
  induction n using Nat.strong_induction_on with
  | _ n ih =>
    intro c hc
    rw [natChars_eq] at hc
    by_cases h : n < 10
    · rw [if_pos h] at hc
      rw [List.mem_singleton] at hc
      subst hc
      exact isDigit_digitChar n h
    · rw [if_neg h, List.mem_append] at hc
      rcases hc with hc | hc
      · exact ih (n / 10) (Nat.div_lt_self (by omega) (by omega)) c hc
      · rw [List.mem_singleton] at hc
        subst hc
        exact isDigit_digitChar (n % 10) (Nat.mod_lt n (by omega))

theorem natChars_length_le : ∀ n k : Nat, 1 ≤ k →
    ((natChars n).length ≤ k ↔ n < 10 ^ k) := by
  intro n
  induction n using Nat.strong_induction_on with
  | _ n ih =>
    intro k hk
    rw [natChars_eq]
    by_cases h : n < 10
    · rw [if_pos h]
      constructor
      · intro _
        calc n < 10 := h
          _ = 10 ^ 1 := by norm_num
          _ ≤ 10 ^ k := Nat.pow_le_pow_right (by omega) hk
      · intro _
        simpa using hk
    · rw [if_neg h, List.length_append]
      match k, hk with
      | 1, _ =>
        have hlen : 1 ≤ (natChars (n / 10)).length :=
          List.length_pos.mpr (natChars_ne_nil (n / 10))
        simp only [List.length_singleton]
        constructor
        · omega
        · intro hn
          norm_num at hn
          omega
      | k' + 2, _ =>
        have hrec := ih (n / 10) (Nat.div_lt_self (by omega) (by omega)) (k' + 1) (by omega)
        simp only [List.length_singleton]
        constructor
        · intro hlen
          have : (natChars (n / 10)).length ≤ k' + 1 := by omega
          have := hrec.mp this
          rw [Nat.div_lt_iff_lt_mul (by omega)] at this
          calc n < 10 ^ (k' + 1) * 10 := this
            _ = 10 ^ (k' + 2) := by rw [← pow_succ]
        · intro hn
          have : n / 10 < 10 ^ (k' + 1) := by
            rw [Nat.div_lt_iff_lt_mul (by omega)]
            calc n < 10 ^ (k' + 2) := hn
              _ = 10 ^ (k' + 1) * 10 := by rw [pow_succ]
          have := hrec.mpr this
          omega

/-! ## Character classes -/

theorem ne_of_isDigit (c x : Char) (hc : c.isDigit = true) (hx : x.isDigit = false) :
    c ≠ x := by
  intro h
  subst h
  rw [hc] at hx
  cases hx

theorem pySpace_false_of_isDigit (c : Char) (hc : c.isDigit = true) : pySpace c = false := by
  cases hps : pySpace c
  · rfl
  · exfalso
    simp only [pySpace, Bool.or_eq_true, decide_eq_true_eq] at hps
    rcases hps with ((((h | h) | h) | h) | h) | h <;> subst h <;>
      exact absurd hc (by decide)

/-! ## `pyStrip` -/

theorem dropWhile_eq_self_of_all {p : Char → Bool} (s : List Char)
    (h : ∀ c ∈ s, p c = false) : s.dropWhile p = s := by
  cases s with
  | nil => rfl
  | cons c cs =>
    exact List.dropWhile_cons_of_neg (by simp [h c (List.mem_cons_self c cs)])

theorem pyStrip_eq_self (s : List Char) (h : ∀ c ∈ s, pySpace c = false) :
    pyStrip s = s := by
  unfold pyStrip
  rw [dropWhile_eq_self_of_all s h,
    dropWhile_eq_self_of_all s.reverse (fun c hc => h c (List.mem_reverse.mp hc)),
    List.reverse_reverse]

theorem mem_of_mem_pyStrip (c : Char) (s : List Char) (h : c ∈ pyStrip s) : c ∈ s := by
  unfold pyStrip at h
  rw [List.mem_reverse] at h
  have h2 := (List.dropWhile_sublist pySpace).subset h
  rw [List.mem_reverse] at h2
  exact (List.dropWhile_sublist pySpace).subset h2

theorem head?_dropWhile_false {p : Char → Bool} :
    ∀ (l : List Char) (c : Char), (l.dropWhile p).head? = some c → p c = false := by
  intro l
  induction l with
  | nil => intro c h; cases h
  | cons a l ih =>
    intro c h
    by_cases ha : p a
    · rw [List.dropWhile_cons_of_pos ha] at h
      exact ih c h
    · rw [List.dropWhile_cons_of_neg ha] at h
      cases h
      exact Bool.not_eq_true _ ▸ (by simpa using ha)

theorem prefix_head?_eq {l₁ l₂ : List Char} (h : l₁ <+: l₂) (hne : l₁ ≠ []) :
    l₂.head? = l₁.head? := by
  rcases h with ⟨t, rfl⟩
  cases l₁ with
  | nil => exact absurd rfl hne
  | cons a l => rfl

theorem pyStrip_prefix_dropWhile (s : List Char) :
    pyStrip s <+: (s.dropWhile pySpace) := by
  unfold pyStrip
  have h := List.dropWhile_suffix (l := (s.dropWhile pySpace).reverse) pySpace
  have h2 := List.reverse_prefix.mpr h
  rwa [List.reverse_reverse] at h2

theorem pyStrip_head?_false (s : List Char) (c : Char)
    (h : (pyStrip s).head? = some c) : pySpace c = false := by
  have hne : pyStrip s ≠ [] := by
    intro hnil
    rw [hnil] at h
    cases h
  have hpre := pyStrip_prefix_dropWhile s
  have := prefix_head?_eq hpre hne
  exact head?_dropWhile_false s c (by rw [this, h])

theorem pyStrip_getLast?_false (s : List Char) (c : Char)
    (h : (pyStrip s).reverse.head? = some c) : pySpace c = false := by
  unfold pyStrip at h
  rw [List.reverse_reverse] at h
  exact head?_dropWhile_false _ c h

theorem pyStrip_idem (s : List Char) : pyStrip (pyStrip s) = pyStrip s := by
  cases hs : pyStrip s with
  | nil => rfl
  | cons a t =>
    show ((((a :: t).dropWhile pySpace).reverse.dropWhile pySpace)).reverse = a :: t
    have ha : pySpace a = false := pyStrip_head?_false s a (by rw [hs]; rfl)
    rw [List.dropWhile_cons_of_neg (by simp [ha])]
    cases hrev : (a :: t).reverse with
    | nil => exact absurd hrev (by simp)
    | cons b u =>
      have hb : pySpace b = false := by
        apply pyStrip_getLast?_false s b
        rw [hs, hrev]
        rfl
      rw [List.dropWhile_cons_of_neg (by simp [hb]), ← hrev, List.reverse_reverse]

/-! ## Substring containment -/

theorem startsWithChars_append (p t : List Char) :
    startsWithChars p (p ++ t) = true := by
  induction p with
  | nil => rfl
  | cons c cs ih => simp [startsWithChars, ih]

theorem exists_of_startsWithChars :
    ∀ (p s : List Char), startsWithChars p s = true → ∃ t, s = p ++ t := by
  intro p
  induction p with
  | nil => exact fun s _ => ⟨s, rfl⟩
  | cons c cs ih =>
    intro s h
    cases s with
    | nil => cases h
    | cons a t =>
      simp only [startsWithChars, Bool.and_eq_true, decide_eq_true_eq] at h
      obtain ⟨rfl, h2⟩ := h
      obtain ⟨u, rfl⟩ := ih t h2
      exact ⟨u, rfl⟩

theorem containsSub_of_startsWith (pat s : List Char)
    (h : startsWithChars pat s = true) : containsSub pat s = true := by
  cases s with
  | nil => exact h
  | cons c cs => simp [containsSub, h]

theorem containsSub_append_self (pat pre post : List Char) :
    containsSub pat (pre ++ pat ++ post) = true := by
  induction pre with
  | nil => exact containsSub_of_startsWith pat (pat ++ post) (startsWithChars_append pat post)
  | cons c cs ih =>
    have ih2 := ih
    rw [List.append_assoc] at ih2
    simp [containsSub, ih2]

theorem mem_of_containsSub :
    ∀ (pat s : List Char), containsSub pat s = true → ∀ c ∈ pat, c ∈ s := by
  intro pat s
  induction s with
  | nil =>
    intro h c hc
    obtain ⟨t, ht⟩ := exists_of_startsWithChars pat [] h
    rw [List.nil_eq, List.append_eq_nil] at ht
    rw [ht.1] at hc
    cases hc
  | cons a u ih =>
    intro h c hc
    simp only [containsSub, Bool.or_eq_true] at h
    rcases h with h | h
    · obtain ⟨t, ht⟩ := exists_of_startsWithChars pat (a :: u) h
      rw [ht]
      exact List.mem_append.mpr (Or.inl hc)
    · exact List.mem_cons_of_mem a (ih h c hc)

theorem containsSub_sep_false (s : List Char) (h : '/' ∉ s) :
    containsSub (chars "://") s = false := by
  cases hc : containsSub (chars "://") s
  · rfl
  · exact absurd (mem_of_containsSub _ s hc '/' (by decide)) h

/-! ## Splitting and newline normalisation -/

theorem splitOnChar_ne_nil (sep : Char) : ∀ s : List Char, splitOnChar sep s ≠ [] := by
  intro s
  cases s with
  | nil => simp [splitOnChar]
  | cons c cs =>
    simp only [splitOnChar]
    split
    · simp
    · split
      · simp
      · simp

theorem splitOnChar_cons_eq (sep c : Char) (cs l : List Char) (ls : List (List Char))
    (hsplit : splitOnChar sep cs = l :: ls) :
    splitOnChar sep (c :: cs)
      = if c = sep then [] :: l :: ls else (c :: l) :: ls := by
  simp only [splitOnChar, hsplit]

theorem splitOnChar_not_mem (sep : Char) : ∀ s : List Char, sep ∉ s →
    splitOnChar sep s = [s] := by
  intro s
  induction s with
  | nil => intro _; rfl
  | cons c cs ih =>
    intro h
    have hc : ¬ (c = sep) := fun he => h (he ▸ List.mem_cons_self c cs)
    have hcs := ih fun hm => h (List.mem_cons_of_mem c hm)
    rw [splitOnChar_cons_eq sep c cs cs [] hcs, if_neg hc]

theorem splitOnChar_append (sep : Char) : ∀ xs r : List Char, sep ∉ xs →
    splitOnChar sep (xs ++ sep :: r) = xs :: splitOnChar sep r := by
  intro xs
  induction xs with
  | nil =>
    intro r _
    show splitOnChar sep (sep :: r) = [] :: splitOnChar sep r
    cases hsplit : splitOnChar sep r with
    | nil => exact absurd hsplit (splitOnChar_ne_nil sep r)
    | cons l ls => rw [splitOnChar_cons_eq sep sep r l ls hsplit, if_pos rfl]
  | cons c cs ih =>
    intro r h
    have hc : ¬ (c = sep) := fun he => h (he ▸ List.mem_cons_self c cs)
    have hcs := ih r fun hm => h (List.mem_cons_of_mem c hm)
    cases hsplit : splitOnChar sep (cs ++ sep :: r) with
    | nil => exact absurd hsplit (splitOnChar_ne_nil sep _)
    | cons l ls =>
      rw [hsplit] at hcs
      cases hcs
      rw [List.cons_append, splitOnChar_cons_eq sep c _ _ _ hsplit, if_neg hc]

theorem mem_splitOnChar_no_sep (sep : Char) : ∀ (s p : List Char),
    p ∈ splitOnChar sep s → sep ∉ p := by
  intro s
  induction s with
  | nil =>
    intro p hp
    simp only [splitOnChar, List.mem_singleton] at hp
    subst hp
    simp
  | cons c cs ih =>
    intro p hp
    cases hsplit : splitOnChar sep cs with
    | nil => exact absurd hsplit (splitOnChar_ne_nil sep cs)
    | cons l ls =>
      rw [splitOnChar_cons_eq sep c cs l ls hsplit] at hp
      by_cases hc : c = sep
      · rw [if_pos hc] at hp
        rcases List.mem_cons.mp hp with rfl | hp
        · simp
        · exact ih p (hsplit ▸ hp)
      · rw [if_neg hc] at hp
        rcases List.mem_cons.mp hp with rfl | hp
        · intro hmem
          rcases List.mem_cons.mp hmem with he | hmem
          · exact hc he.symm
          · exact ih l (hsplit ▸ List.mem_cons_self l ls) hmem
        · exact ih p (hsplit ▸ List.mem_cons_of_mem l hp)

theorem mem_splitOnChar_subset (sep : Char) : ∀ (s p : List Char),
    p ∈ splitOnChar sep s → ∀ c ∈ p, c ∈ s := by
  intro s
  induction s with
  | nil =>
    intro p hp
    simp only [splitOnChar, List.mem_singleton] at hp
    subst hp
    intro c hc
    cases hc
  | cons a cs ih =>
    intro p hp c hc
    cases hsplit : splitOnChar sep cs with
    | nil => exact absurd hsplit (splitOnChar_ne_nil sep cs)
    | cons l ls =>
      rw [splitOnChar_cons_eq sep a cs l ls hsplit] at hp
      by_cases ha : a = sep
      · rw [if_pos ha] at hp
        rcases List.mem_cons.mp hp with rfl | hp
        · cases hc
        · exact List.mem_cons_of_mem a (ih p (hsplit ▸ hp) c hc)
      · rw [if_neg ha] at hp
        rcases List.mem_cons.mp hp with rfl | hp
        · rcases List.mem_cons.mp hc with rfl | hc
          · exact List.mem_cons_self c cs
          · exact List.mem_cons_of_mem a
              (ih l (hsplit ▸ List.mem_cons_self l ls) c hc)
        · exact List.mem_cons_of_mem a
            (ih p (hsplit ▸ List.mem_cons_of_mem l hp) c hc)

theorem replCRLF_no_cr : ∀ s : List Char, '\r' ∉ s → replCRLF s = s := by
  intro s
  induction s with
  | nil => intro _; rfl
  | cons c cs ih =>
    intro h
    have hc : c ≠ '\r' := fun he => h (he ▸ List.mem_cons_self c cs)
    have hcs : '\r' ∉ cs := fun hm => h (List.mem_cons_of_mem c hm)
    cases cs with
    | nil => rfl
    | cons c2 cs2 =>
      show replCRLF (c :: c2 :: cs2) = c :: c2 :: cs2
      rw [show replCRLF (c :: c2 :: cs2)
          = if c = '\r' ∧ c2 = '\n' then '\n' :: replCRLF cs2
            else c :: replCRLF (c2 :: cs2) from rfl,
        if_neg (fun hand => hc hand.1), ih hcs]

theorem mem_replCRLF : ∀ (s : List Char) (c : Char), c ∈ replCRLF s → c ∈ s ∨ c = '\n' := by
  intro s
  induction s using replCRLF.induct with
  | case1 => intro c hc; cases hc
  | case2 a =>
    intro c hc
    exact Or.inl hc
  | case3 c1 c2 cs hpair ih =>
    intro c hc
    rw [show replCRLF (c1 :: c2 :: cs)
        = if c1 = '\r' ∧ c2 = '\n' then '\n' :: replCRLF cs
          else c1 :: replCRLF (c2 :: cs) from rfl, if_pos hpair] at hc
    rcases List.mem_cons.mp hc with rfl | hc
    · exact Or.inr rfl
    · rcases ih c hc with hm | he
      · exact Or.inl (List.mem_cons_of_mem c1 (List.mem_cons_of_mem c2 hm))
      · exact Or.inr he
  | case4 c1 c2 cs hpair ih =>
    intro c hc
    rw [show replCRLF (c1 :: c2 :: cs)
        = if c1 = '\r' ∧ c2 = '\n' then '\n' :: replCRLF cs
          else c1 :: replCRLF (c2 :: cs) from rfl, if_neg hpair] at hc
    rcases List.mem_cons.mp hc with rfl | hc
    · exact Or.inl (List.mem_cons_self c _)
    · rcases ih c hc with hm | he
      · exact Or.inl (List.mem_cons_of_mem c1 hm)
      · exact Or.inr he

theorem replCR_eq_self (s : List Char) (h : '\r' ∉ s) : replCR s = s := by
  unfold replCR
  rw [List.map_congr_left fun c hc => if_neg fun he : c = '\r' => h (he ▸ hc)]
  exact List.map_id s

theorem no_cr_mem_replCR (s : List Char) : '\r' ∉ replCR s := by
  intro h
  unfold replCR at h
  rcases List.mem_map.mp h with ⟨c, _, hc⟩
  by_cases he : c = '\r' <;> simp [he] at hc

theorem no_cr_normalize (s : List Char) : '\r' ∉ pyNormalizeNewlines s :=
  no_cr_mem_replCR (replCRLF s)

theorem normalize_eq_self (s : List Char) (h : '\r' ∉ s) :
    pyNormalizeNewlines s = s := by
  unfold pyNormalizeNewlines
  rw [replCRLF_no_cr s h, replCR_eq_self s h]

theorem normalize_idem (s : List Char) :
    pyNormalizeNewlines (pyNormalizeNewlines s) = pyNormalizeNewlines s :=
  normalize_eq_self _ (no_cr_normalize s)

/-! ## The sort-and-dedup order -/

theorem ltChars_irrefl : ∀ x : List Char, ltChars x x = false := by
  intro x
  induction x with
  | nil => rfl
  | cons a as ih => simp [ltChars, lt_irrefl, ih]

theorem ne_of_ltChars (x y : List Char) (h : ltChars x y = true) : x ≠ y := by
  intro he
  subst he
  rw [ltChars_irrefl] at h
  cases h

theorem eq_of_not_ltChars : ∀ x y : List Char,
    ltChars x y = false → ltChars y x = false → x = y := by
  intro x
  induction x with
  | nil =>
    intro y h1 _
    cases y with
    | nil => rfl
    | cons b bs => simp [ltChars] at h1
  | cons a as ih =>
    intro y h1 h2
    cases y with
    | nil => simp [ltChars] at h2
    | cons b bs =>
      simp only [ltChars] at h1 h2
      by_cases hab : a < b
      · rw [if_pos hab] at h1
        cases h1
      · by_cases hba : b < a
        · rw [if_pos hba] at h2
          cases h2
        · rw [if_neg hab, if_neg hba] at h1
          rw [if_neg hba, if_neg hab] at h2
          rw [le_antisymm (not_lt.mp hba) (not_lt.mp hab), ih bs h1 h2]

theorem ltChars_total (x y : List Char) :
    x = y ∨ ltChars x y = true ∨ ltChars y x = true := by
  cases h1 : ltChars x y
  · cases h2 : ltChars y x
    · exact Or.inl (eq_of_not_ltChars x y h1 h2)
    · exact Or.inr (Or.inr rfl)
  · exact Or.inr (Or.inl rfl)

theorem ltChars_trans : ∀ x y z : List Char,
    ltChars x y = true → ltChars y z = true → ltChars x z = true := by
  intro x
  induction x with
  | nil =>
    intro y z h1 h2
    cases y with
    | nil => simp [ltChars] at h1
    | cons b bs =>
      cases z with
      | nil => simp [ltChars] at h2
      | cons c cs => rfl
  | cons a as ih =>
    intro y z h1 h2
    cases y with
    | nil => simp [ltChars] at h1
    | cons b bs =>
      cases z with
      | nil => simp [ltChars] at h2
      | cons c cs =>
        simp only [ltChars] at h1 h2 ⊢
        by_cases hab : a < b
        · by_cases hbc : b < c
          · rw [if_pos (lt_trans hab hbc)]
          · by_cases hcb : c < b
            · rw [if_neg hbc, if_pos hcb] at h2
              cases h2
            · rw [le_antisymm (not_lt.mp hcb) (not_lt.mp hbc)] at hab
              rw [if_pos hab]
        · by_cases hba : b < a
          · rw [if_pos hba] at h1
            rw [if_neg hab] at h1
            cases h1
          · rw [le_antisymm (not_lt.mp hba) (not_lt.mp hab)]
            by_cases hbc : b < c
            · rw [if_pos hbc]
            · by_cases hcb : c < b
              · rw [if_neg hbc, if_pos hcb] at h2
                cases h2
              · rw [if_neg hab, if_neg hba] at h1
                rw [if_neg hbc, if_neg hcb] at h2
                rw [if_neg hbc, if_neg hcb]
                exact ih bs cs h1 h2

theorem mem_insertKey (x a : List Char) : ∀ l : List (List Char),
    a ∈ insertKey x l ↔ a = x ∨ a ∈ l := by
  intro l
  induction l with
  | nil => simp [insertKey]
  | cons y ys ih =>
    simp only [insertKey]
    by_cases hxy : x = y
    · subst hxy
      rw [if_pos rfl]
      constructor
      · exact Or.inr
      · rintro (rfl | h)
        · exact List.mem_cons_self a ys
        · exact h
    · rw [if_neg hxy]
      by_cases hlt : ltChars x y = true
      · rw [if_pos hlt]
        simp [List.mem_cons]
      · rw [if_neg hlt]
        simp only [List.mem_cons, ih]
        tauto

theorem insertKey_head? (x : List Char) (l : List (List Char)) :
    (insertKey x l).head? = some x ∨ (insertKey x l).head? = l.head? := by
  cases l with
  | nil => exact Or.inl rfl
  | cons y ys =>
    simp only [insertKey]
    by_cases hxy : x = y
    · rw [if_pos hxy]
      exact Or.inr rfl
    · rw [if_neg hxy]
      by_cases hlt : ltChars x y = true
      · rw [if_pos hlt]
        exact Or.inl rfl
      · rw [if_neg hlt]
        exact Or.inr rfl

theorem sortedKeys_insertKey (x : List Char) : ∀ l : List (List Char),
    SortedKeys l → SortedKeys (insertKey x l) := by
  intro l
  induction l with
  | nil => intro _; exact List.chain'_singleton x
  | cons y ys ih =>
    intro h
    simp only [insertKey]
    by_cases hxy : x = y
    · rw [if_pos hxy]
      exact h
    · rw [if_neg hxy]
      by_cases hlt : ltChars x y = true
      · rw [if_pos hlt]
        exact List.chain'_cons.mpr ⟨hlt, h⟩
      · rw [if_neg hlt]
        have hyx : ltChars y x = true := by
          rcases ltChars_total x y with he | hl | hl
          · exact absurd he hxy
          · exact absurd hl hlt
          · exact hl
        have hys : SortedKeys ys := h.tail
        refine List.chain'_cons'.mpr ⟨?_, ih hys⟩
        intro b hb
        rcases insertKey_head? x ys with hh | hh
        · rw [hh] at hb
          cases hb
          exact hyx
        · rw [hh] at hb
          exact (List.chain'_cons'.mp h).1 b hb

theorem sortedKeys_sortDedup : ∀ xs : List (List Char), SortedKeys (sortDedup xs) := by
  intro xs
  induction xs with
  | nil => exact List.chain'_nil
  | cons x xs ih => exact sortedKeys_insertKey x _ ih

theorem mem_sortDedup (a : List Char) : ∀ xs : List (List Char),
    a ∈ sortDedup xs ↔ a ∈ xs := by
  intro xs
  induction xs with
  | nil => simp [sortDedup]
  | cons x xs ih =>
    show a ∈ insertKey x (sortDedup xs) ↔ _
    rw [mem_insertKey, ih]
    simp [List.mem_cons]

theorem sortDedup_of_sorted : ∀ l : List (List Char), SortedKeys l → sortDedup l = l := by
  intro l
  induction l with
  | nil => intro _; rfl
  | cons x l ih =>
    intro h
    show insertKey x (sortDedup l) = x :: l
    rw [ih h.tail]
    cases l with
    | nil => rfl
    | cons y ys =>
      have hlt : ltChars x y = true := List.chain'_cons.mp h |>.1
      simp only [insertKey]
      rw [if_neg (ne_of_ltChars x y hlt), if_pos hlt]

theorem sortedKeys_rel_head (x : List Char) : ∀ l : List (List Char),
    SortedKeys (x :: l) → ∀ b ∈ l, ltChars x b = true := by
  intro l
  induction l generalizing x with
  | nil => intro _ b hb; cases hb
  | cons y ys ih =>
    intro h b hb
    have hxy : ltChars x y = true := (List.chain'_cons.mp h).1
    rcases List.mem_cons.mp hb with rfl | hb
    · exact hxy
    · exact ltChars_trans x y b hxy (ih y (List.chain'_cons.mp h).2 b hb)

theorem nodup_of_sortedKeys : ∀ l : List (List Char), SortedKeys l → l.Nodup := by
  intro l
  induction l with
  | nil => intro _; exact List.nodup_nil
  | cons x l ih =>
    intro h
    rw [List.nodup_cons]
    exact ⟨fun hmem => ne_of_ltChars x x (sortedKeys_rel_head x l h x hmem) rfl,
      ih h.tail⟩

theorem sortDedup_idem (xs : List (List Char)) : sortDedup (sortDedup xs) = sortDedup xs :=
  sortDedup_of_sorted _ (sortedKeys_sortDedup xs)

/-! ## Finalize -/

theorem joinLines_cons (l : List Char) (ls : List (List Char)) :
    joinLines (l :: ls) = l ++ '\n' :: joinLines ls := rfl

theorem mem_joinLines : ∀ (ls : List (List Char)) (c : Char),
    c ∈ joinLines ls → (∃ l ∈ ls, c ∈ l) ∨ c = '\n' := by
  intro ls
  induction ls with
  | nil => intro c hc; cases hc
  | cons l ls ih =>
    intro c hc
    rw [joinLines_cons] at hc
    rcases List.mem_append.mp hc with hc | hc
    · exact Or.inl ⟨l, List.mem_cons_self l ls, hc⟩
    · rcases List.mem_cons.mp hc with rfl | hc
      · exact Or.inr rfl
      · rcases ih c hc with ⟨l2, hl2, hcl2⟩ | he
        · exact Or.inl ⟨l2, List.mem_cons_of_mem l hl2, hcl2⟩
        · exact Or.inr he

theorem no_cr_joinLines (ls : List (List Char)) (h : ∀ l ∈ ls, '\r' ∉ l) :
    '\r' ∉ joinLines ls := by
  intro hmem
  rcases mem_joinLines ls '\r' hmem with ⟨l, hl, hcl⟩ | he
  · exact h l hl hcl
  · cases he

theorem splitOnChar_joinLines : ∀ ls : List (List Char), (∀ l ∈ ls, '\n' ∉ l) →
    splitOnChar '\n' (joinLines ls) = ls ++ [[]] := by
  intro ls
  induction ls with
  | nil => intro _; rfl
  | cons l ls ih =>
    intro h
    rw [joinLines_cons,
      splitOnChar_append '\n' l (joinLines ls) (h l (List.mem_cons_self l ls)),
      ih fun l2 hl2 => h l2 (List.mem_cons_of_mem l hl2)]
    rfl

theorem finalizeLines_joinLines (ls : List (List Char))
    (h : ∀ l ∈ ls, '\n' ∉ l ∧ '\r' ∉ l) :
    finalizeLines (joinLines ls) = sortDedup ((ls.map pyStrip).filter goodLine) := by
  unfold finalizeLines
  rw [normalize_eq_self _ (no_cr_joinLines ls fun l hl => (h l hl).2),
    splitOnChar_joinLines ls fun l hl => (h l hl).1,
    List.map_append, List.filter_append]
  have : ([[]] : List (List Char)).map pyStrip = [[]] := rfl
  rw [this, show List.filter goodLine [[]] = [] from rfl, List.append_nil]

theorem sortedKeys_finalizeLines (content : List Char) :
    SortedKeys (finalizeLines content) :=
  sortedKeys_sortDedup _

theorem mem_finalizeLines_iff (content l : List Char) :
    l ∈ finalizeLines content
      ↔ (l ∈ (splitOnChar '\n' (pyNormalizeNewlines content)).map pyStrip
          ∧ goodLine l = true) := by
  unfold finalizeLines
  rw [mem_sortDedup, List.mem_filter]

theorem finalizeLines_shape (content : List Char) :
    ∀ l ∈ finalizeLines content,
      goodLine l = true ∧ pyStrip l = l ∧ '\n' ∉ l ∧ '\r' ∉ l := by
  intro l hl
  rcases (mem_finalizeLines_iff content l).mp hl with ⟨hmem, hgood⟩
  rcases List.mem_map.mp hmem with ⟨raw, hraw, rfl⟩
  have hsub : ∀ c ∈ pyStrip raw, c ∈ pyNormalizeNewlines content := fun c hc =>
    mem_splitOnChar_subset '\n' _ raw hraw c (mem_of_mem_pyStrip c raw hc)
  refine ⟨hgood, pyStrip_idem raw, ?_, ?_⟩
  · intro hnl
    exact mem_splitOnChar_no_sep '\n' _ raw hraw (mem_of_mem_pyStrip _ raw hnl)
  · intro hcr
    exact no_cr_normalize content (hsub '\r' hcr)

/-- C5: finalize on its own output is the identity; a missing artifact is
treated as zero entries rather than an error; and the finalized artifact is
a strictly sorted, duplicate-free list holding exactly the stripped lines
that are non-empty and re-validate through `parse_proxy_url`. -/
theorem finalize_idempotent_clean : ∀ f : Option (List Char),
    (sort_and_finalize_proxies_file (sort_and_finalize_proxies_file f)
      = sort_and_finalize_proxies_file f)
    ∧ sort_and_finalize_proxies_file none = none
    ∧ ∀ content : List Char,
        SortedKeys (finalizeLines content)
        ∧ (finalizeLines content).Nodup
        ∧ ∀ l, l ∈ finalizeLines content
            ↔ (l ∈ (splitOnChar '\n' (pyNormalizeNewlines content)).map pyStrip
                ∧ goodLine l = true) := by
  intro f
  refine ⟨?_, rfl, ?_⟩
  · cases f with
    | none => rfl
    | some content =>
      show some (joinLines (finalizeLines (joinLines (finalizeLines content))))
          = some (joinLines (finalizeLines content))
      have hshape := finalizeLines_shape content
      rw [finalizeLines_joinLines (finalizeLines content)
        fun l hl => ⟨(hshape l hl).2.2.1, (hshape l hl).2.2.2⟩]
      rw [List.map_congr_left fun l hl => (hshape l hl).2.1, List.map_id',
        List.filter_eq_self.mpr fun l hl => (hshape l hl).1,
        sortDedup_of_sorted _ (sortedKeys_finalizeLines content)]
  · intro content
    exact ⟨sortedKeys_finalizeLines content,
      nodup_of_sortedKeys _ (sortedKeys_finalizeLines content),
      fun l => mem_finalizeLines_iff content l⟩

/-- C2 amended: after finalize the artifact is the sorted, deduplicated set
of exactly those appended keys that re-validate through the codec: every
appended key whose stripped form is non-empty and parses is kept, and an
appended key that does not re-validate (a hostname key such as
`example.com:8080`) is dropped even though the run appended it. -/
theorem finalize_artifact_exact : ∀ ws : List (List Char),
    (∀ w ∈ ws, '\n' ∉ w ∧ '\r' ∉ w) →
    SortedKeys (finalizeLines (runArtifact ws))
    ∧ (finalizeLines (runArtifact ws)).Nodup
    ∧ ∀ k, k ∈ finalizeLines (runArtifact ws)
        ↔ ∃ w ∈ ws, pyStrip w = k ∧ goodLine k = true := by
  intro ws h
  refine ⟨sortedKeys_finalizeLines _, nodup_of_sortedKeys _ (sortedKeys_finalizeLines _), ?_⟩
  intro k
  show k ∈ finalizeLines (joinLines ws) ↔ _
  rw [finalizeLines_joinLines ws h, mem_sortDedup, List.mem_filter]
  constructor
  · rintro ⟨hmem, hgood⟩
    rcases List.mem_map.mp hmem with ⟨w, hw, rfl⟩
    exact ⟨w, hw, rfl, hgood⟩
  · rintro ⟨w, hw, rfl, hgood⟩
    exact ⟨List.mem_map.mpr ⟨w, hw, rfl⟩, hgood⟩

/-- Concrete instantiation of `finalize_artifact_exact`: a validating
appended key survives finalize. -/
theorem finalize_artifact_exact_witness :
    (chars "1.2.3.4:8080")
      ∈ finalizeLines (runArtifact [chars "5.6.7.8:80", chars "1.2.3.4:8080"]) :=
  ((finalize_artifact_exact [chars "5.6.7.8:80", chars "1.2.3.4:8080"]
      (by decide)).2.2 (chars "1.2.3.4:8080")).mpr
    ⟨chars "1.2.3.4:8080", by decide, by decide, by decide⟩

/-! ## Extraction -/

theorem skippedLine_iff (l : List Char) :
    skippedLine l = true ↔ (pyStrip l = [] ∨ (pyStrip l).head? = some '#') := by
  unfold skippedLine
  rw [Bool.or_eq_true, List.isEmpty_iff, beq_iff_eq]

theorem extractStep_skip (acc : Finset (List Char)) (l : List Char)
    (h : skippedLine l = true) : extractStep acc l = acc := by
  unfold extractStep
  rw [if_pos ((skippedLine_iff l).mp h)]

theorem foldl_extract_filter : ∀ (lines : List (List Char)) (acc : Finset (List Char)),
    lines.foldl extractStep acc
      = (lines.filter fun l => !skippedLine l).foldl extractStep acc := by
  intro lines
  induction lines with
  | nil => intro _; rfl
  | cons l ls ih =>
    intro acc
    by_cases hl : skippedLine l = true
    · rw [List.foldl_cons, extractStep_skip acc l hl,
        List.filter_cons_of_neg (by simp [hl]), ih acc]
    · rw [List.foldl_cons, List.filter_cons_of_pos (by simp [Bool.not_eq_true] at hl ⊢; exact hl),
        List.foldl_cons, ih (extractStep acc l)]

/-- C6: the extraction skips blank lines and lines beginning with `#` (the
set is computed from the non-skipped lines alone), and its result on any
text equals its result on the same text with normalised line endings. -/
theorem extract_skips_and_newline_invariant : ∀ text : List Char,
    (extract_proxies_from_text text
      = extractFromLines ((splitOnChar '\n' (pyNormalizeNewlines text)).filter
          fun l => !skippedLine l))
    ∧ extract_proxies_from_text text
        = extract_proxies_from_text (pyNormalizeNewlines text) := by
  intro text
  constructor
  · exact foldl_extract_filter _ ∅
  · show extractFromLines _ = extractFromLines _
    rw [normalize_idem]

/-! ## The IPv4-literal branch on canonical numerals -/

theorem spanDigits_eq (xs r : List Char) (hxs : ∀ c ∈ xs, c.isDigit = true)
    (hr : ∀ c, r.head? = some c → c.isDigit = false) :
    spanDigits (xs ++ r) = (xs, r) := by
  unfold spanDigits
  have ht : r.takeWhile Char.isDigit = [] := by
    cases r with
    | nil => rfl
    | cons c t => exact List.takeWhile_cons_of_neg (by simp [hr c rfl])
  have hd : r.dropWhile Char.isDigit = r := by
    cases r with
    | nil => rfl
    | cons c t => exact List.dropWhile_cons_of_neg (by simp [hr c rfl])
  rw [List.takeWhile_append_of_pos (fun a ha => by simp [hxs a ha]),
    List.dropWhile_append_of_pos (fun a ha => by simp [hxs a ha]), ht, hd,
    List.append_nil]

theorem spanDigits_natChars (n : Nat) (r : List Char)
    (hr : ∀ c, r.head? = some c → c.isDigit = false) :
    spanDigits (natChars n ++ r) = (natChars n, r) :=
  spanDigits_eq (natChars n) r (isDigit_of_mem_natChars n) hr

theorem natChars_length_pos (n : Nat) : 1 ≤ (natChars n).length :=
  List.length_pos.mpr (natChars_ne_nil n)

theorem natChars_length_le3 (n : Nat) : (natChars n).length ≤ 3 ↔ n ≤ 999 := by
  rw [natChars_length_le n 3 (by omega)]
  have h : (10 : Nat) ^ 3 = 1000 := by norm_num
  omega

theorem natChars_length_le5 (n : Nat) : (natChars n).length ≤ 5 ↔ n ≤ 99999 := by
  rw [natChars_length_le n 5 (by omega)]
  have h : (10 : Nat) ^ 5 = 100000 := by norm_num
  omega

theorem spanDigits_natChars_nil (n : Nat) :
    spanDigits (natChars n) = (natChars n, []) := by
  have h := spanDigits_natChars n [] (by rintro x h; cases h)
  rwa [List.append_nil] at h

theorem ipPortMatch_ipPortStr (a b c d p : Nat) :
    ipPortMatch (ipPortStr a b c d p)
      = if a ≤ 999 ∧ b ≤ 999 ∧ c ≤ 999 ∧ d ≤ 999 ∧ p ≤ 99999
        then some (ipStr a b c d, natChars p) else none := by
  have hdot : ∀ (t : List Char) (x : Char), ('.' :: t).head? = some x → x.isDigit = false := by
    rintro t x h
    cases h
    decide
  have hcolon : ∀ (t : List Char) (x : Char), (':' :: t).head? = some x → x.isDigit = false := by
    rintro t x h
    cases h
    decide
  have hs : ipPortStr a b c d p
      = natChars a
          ++ '.' :: (natChars b
          ++ '.' :: (natChars c
          ++ '.' :: (natChars d ++ ':' :: natChars p))) := by
    unfold ipPortStr ipStr
    simp [List.append_assoc]
  rw [hs]
  unfold ipPortMatch
  rw [spanDigits_natChars a _ (hdot _)]
  dsimp only
  by_cases ha : a ≤ 999
  · rw [if_pos ⟨natChars_length_pos a, (natChars_length_le3 a).mpr ha⟩, if_pos rfl]
    rw [spanDigits_natChars b _ (hdot _)]
    dsimp only
    by_cases hb : b ≤ 999
    · rw [if_pos ⟨natChars_length_pos b, (natChars_length_le3 b).mpr hb⟩, if_pos rfl]
      rw [spanDigits_natChars c _ (hdot _)]
      dsimp only
      by_cases hc : c ≤ 999
      · rw [if_pos ⟨natChars_length_pos c, (natChars_length_le3 c).mpr hc⟩, if_pos rfl]
        rw [spanDigits_natChars d _ (hcolon _)]
        dsimp only
        by_cases hd : d ≤ 999
        · rw [if_pos ⟨natChars_length_pos d, (natChars_length_le3 d).mpr hd⟩, if_pos rfl]
          rw [spanDigits_natChars_nil p]
          dsimp only
          by_cases hp : p ≤ 99999
          · rw [if_pos ⟨natChars_length_pos p, (natChars_length_le5 p).mpr hp, rfl⟩,
              if_pos ⟨ha, hb, hc, hd, hp⟩]
            rfl
          · rw [if_neg fun hcond => hp ((natChars_length_le5 p).mp hcond.2.1),
              if_neg fun hcond => hp hcond.2.2.2.2]
        · rw [if_neg fun hcond => hd ((natChars_length_le3 d).mp hcond.2),
            if_neg fun hcond => hd hcond.2.2.2.1]
      · rw [if_neg fun hcond => hc ((natChars_length_le3 c).mp hcond.2),
          if_neg fun hcond => hc hcond.2.2.1]
    · rw [if_neg fun hcond => hb ((natChars_length_le3 b).mp hcond.2),
        if_neg fun hcond => hb hcond.2.1]
  · rw [if_neg fun hcond => ha ((natChars_length_le3 a).mp hcond.2),
      if_neg fun hcond => ha hcond.1]

theorem ipStr_assoc (a b c d : Nat) :
    ipStr a b c d
      = natChars a ++ '.' :: (natChars b ++ '.' :: (natChars c ++ '.' :: natChars d)) := by
  unfold ipStr
  simp [List.append_assoc]

theorem splitDot_ipStr (a b c d : Nat) :
    splitOnChar '.' (ipStr a b c d) = [natChars a, natChars b, natChars c, natChars d] := by
  have hnd : ∀ n : Nat, '.' ∉ natChars n := fun n hm =>
    absurd (isDigit_of_mem_natChars n '.' hm) (by decide)
  rw [ipStr_assoc, splitOnChar_append '.' _ _ (hnd a), splitOnChar_append '.' _ _ (hnd b),
    splitOnChar_append '.' _ _ (hnd c), splitOnChar_not_mem '.' _ (hnd d)]

theorem mem_ipPortStr (a b c d p : Nat) :
    ∀ x ∈ ipPortStr a b c d p, x.isDigit = true ∨ x = '.' ∨ x = ':' := by
  intro x hx
  have hdig : ∀ (n : Nat), x ∈ natChars n → x.isDigit = true ∨ x = '.' ∨ x = ':' :=
    fun n h => Or.inl (isDigit_of_mem_natChars n x h)
  unfold ipPortStr at hx
  rcases List.mem_append.mp hx with hx | hx
  · rw [ipStr_assoc] at hx
    rcases List.mem_append.mp hx with hx | hx
    · exact hdig a hx
    · rcases List.mem_cons.mp hx with rfl | hx
      · exact Or.inr (Or.inl rfl)
      · rcases List.mem_append.mp hx with hx | hx
        · exact hdig b hx
        · rcases List.mem_cons.mp hx with rfl | hx
          · exact Or.inr (Or.inl rfl)
          · rcases List.mem_append.mp hx with hx | hx
            · exact hdig c hx
            · rcases List.mem_cons.mp hx with rfl | hx
              · exact Or.inr (Or.inl rfl)
              · exact hdig d hx
  · rcases List.mem_cons.mp hx with rfl | hx
    · exact Or.inr (Or.inr rfl)
    · exact hdig p hx

/-- C3: on the canonical decimal rendering `a.b.c.d:p`, `parse_proxy_url`
returns the match `(a.b.c.d, str(p), http)` exactly when every octet is in
`[0, 255]` and the port is in `[1, 65535]`, and no match otherwise. -/
theorem parse_ipv4_literal : ∀ a b c d p : Nat,
    parse_proxy_url (ipPortStr a b c d p)
      = if a ≤ 255 ∧ b ≤ 255 ∧ c ≤ 255 ∧ d ≤ 255 ∧ 1 ≤ p ∧ p ≤ 65535
        then some (ipStr a b c d, natChars p, chars "http")
        else none := by
  intro a b c d p
  have hmem := mem_ipPortStr a b c d p
  have hstrip : pyStrip (ipPortStr a b c d p) = ipPortStr a b c d p := by
    apply pyStrip_eq_self
    intro x hx
    rcases hmem x hx with h | rfl | rfl
    · exact pySpace_false_of_isDigit x h
    · decide
    · decide
  have hne : ipPortStr a b c d p ≠ [] := by
    unfold ipPortStr ipStr
    simp
  have hnosep : containsSub (chars "://") (ipPortStr a b c d p) = false := by
    apply containsSub_sep_false
    intro hsl
    rcases hmem '/' hsl with h | h | h
    · exact absurd h (by decide)
    · exact absurd h (by decide)
    · exact absurd h (by decide)
  unfold parse_proxy_url
  rw [hstrip, if_neg hne, hnosep]
  simp only [Bool.false_eq_true, if_false]
  rw [ipPortMatch_ipPortStr]
  by_cases hcond : a ≤ 255 ∧ b ≤ 255 ∧ c ≤ 255 ∧ d ≤ 255 ∧ 1 ≤ p ∧ p ≤ 65535
  · obtain ⟨h1, h2, h3, h4, h5, h6⟩ := hcond
    rw [if_pos (show a ≤ 999 ∧ b ≤ 999 ∧ c ≤ 999 ∧ d ≤ 999 ∧ p ≤ 99999 from
      ⟨by omega, by omega, by omega, by omega, by omega⟩)]
    dsimp only
    rw [splitDot_ipStr,
      if_pos (show a ≤ 255 ∧ b ≤ 255 ∧ c ≤ 255 ∧ d ≤ 255 ∧ 1 ≤ p ∧ p ≤ 65535 from
        ⟨h1, h2, h3, h4, h5, h6⟩)]
    simp [ipStr, natOfDigits_natChars, h1, h2, h3, h4, h5, h6]
  · rw [if_neg hcond]
    by_cases hsmall : a ≤ 999 ∧ b ≤ 999 ∧ c ≤ 999 ∧ d ≤ 999 ∧ p ≤ 99999
    · rw [if_pos hsmall]
      dsimp only
      rw [splitDot_ipStr]
      split_ifs with hv
      · exfalso
        simp only [List.all_cons, List.all_nil, natOfDigits_natChars, Bool.and_eq_true,
          decide_eq_true_eq, Bool.and_true] at hv
        exact hcond (by tauto)
      · rfl
    · rw [if_neg hsmall]

/-! ## The URL branch on `scheme://host:port` -/

theorem pred_ne (P : Char → Bool) (c x : Char) (hc : P c = true) (hx : P x = false) :
    c ≠ x := by
  intro he
  subst he
  rw [hc] at hx
  cases hx

theorem pySpace_elim (c : Char) (h : pySpace c = true) :
    c = ' ' ∨ c = '\t' ∨ c = '\n' ∨ c = '\r' ∨ c = '\x0b' ∨ c = '\x0c' := by
  simp only [pySpace, Bool.or_eq_true, decide_eq_true_eq] at h
  tauto

theorem pySpace_false_of_pred (P : Char → Bool) (c : Char) (hc : P c = true)
    (hsp : P ' ' = false) (ht : P '\t' = false) (hn : P '\n' = false)
    (hr : P '\r' = false) (hv : P '\x0b' = false) (hf : P '\x0c' = false) :
    pySpace c = false := by
  cases hps : pySpace c
  · rfl
  · exfalso
    rcases pySpace_elim c hps with rfl | rfl | rfl | rfl | rfl | rfl <;> simp_all

theorem toLower_eq_self (c : Char) (h : ¬ (65 ≤ c.toNat ∧ c.toNat ≤ 90)) :
    Char.toLower c = c := by
  unfold Char.toLower
  exact if_neg h

theorem isLowerAlpha_toNat (c : Char) (h : isLowerAlpha c = true) :
    97 ≤ c.toNat ∧ c.toNat ≤ 122 := by
  simpa only [isLowerAlpha, Bool.and_eq_true, decide_eq_true_eq] using h

theorem toLower_eq_self_of_lower (c : Char) (h : isLowerAlpha c = true) :
    Char.toLower c = c := by
  have := isLowerAlpha_toNat c h
  exact toLower_eq_self c (by omega)

theorem hostChar_cases (c : Char) (h : hostChar c = true) :
    (97 ≤ c.toNat ∧ c.toNat ≤ 122) ∨ (48 ≤ c.toNat ∧ c.toNat ≤ 57)
      ∨ c = '.' ∨ c = '-' := by
  simp only [hostChar, isLowerAlpha, Bool.or_eq_true, Bool.and_eq_true,
    decide_eq_true_eq] at h
  tauto

theorem toLower_eq_self_of_hostChar (c : Char) (h : hostChar c = true) :
    Char.toLower c = c := by
  rcases hostChar_cases c h with hr | hr | rfl | rfl
  · exact toLower_eq_self c (by omega)
  · exact toLower_eq_self c (by omega)
  · decide
  · decide

theorem isAsciiAlpha_of_lower (c : Char) (h : isLowerAlpha c = true) :
    isAsciiAlpha c = true := by
  have := isLowerAlpha_toNat c h
  simp only [isAsciiAlpha, Bool.or_eq_true, Bool.and_eq_true, decide_eq_true_eq]
  omega

theorem schemeChar_of_lower (c : Char) (h : isLowerAlpha c = true) :
    schemeChar c = true := by
  simp only [schemeChar, Bool.or_eq_true]
  exact Or.inl (Or.inl (Or.inl (Or.inl (isAsciiAlpha_of_lower c h))))

theorem uint32_le_toNat {a b : UInt32} (h : a ≤ b) : a.toNat ≤ b.toNat := by
  rw [UInt32.le_def, BitVec.le_def] at h
  exact h

theorem isDigit_false_of_lower (c : Char) (h : isLowerAlpha c = true) :
    c.isDigit = false := by
  have hn := isLowerAlpha_toNat c h
  cases hd : c.isDigit
  · rfl
  · exfalso
    simp only [Char.isDigit, Bool.and_eq_true, decide_eq_true_eq] at hd
    have h2 : c.toNat ≤ (57 : UInt32).toNat := uint32_le_toNat hd.2
    have h3 : (57 : UInt32).toNat = 57 := rfl
    omega

theorem toNat_range_of_isDigit (c : Char) (h : c.isDigit = true) :
    48 ≤ c.toNat ∧ c.toNat ≤ 57 := by
  simp only [Char.isDigit, Bool.and_eq_true, decide_eq_true_eq] at h
  have h1 : (48 : UInt32).toNat ≤ c.toNat := uint32_le_toNat h.1
  have h2 : c.toNat ≤ (57 : UInt32).toNat := uint32_le_toNat h.2
  exact ⟨h1, h2⟩

theorem schemeChar_of_tail (c : Char) (h : schemeTailChar c = true) :
    schemeChar c = true := by
  simp only [schemeTailChar, Bool.or_eq_true] at h
  rcases h with h | h
  · exact schemeChar_of_lower c h
  · have := toNat_range_of_isDigit c h
    simp only [schemeChar, Bool.or_eq_true, Bool.and_eq_true, decide_eq_true_eq]
    exact Or.inl (Or.inl (Or.inl (Or.inr ⟨this.1, this.2⟩)))

theorem toLower_eq_self_of_tail (c : Char) (h : schemeTailChar c = true) :
    Char.toLower c = c := by
  simp only [schemeTailChar, Bool.or_eq_true] at h
  rcases h with h | h
  · exact toLower_eq_self_of_lower c h
  · have := toNat_range_of_isDigit c h
    exact toLower_eq_self c (by omega)

theorem pySpace_false_of_tail (c : Char) (h : schemeTailChar c = true) :
    pySpace c = false := by
  simp only [schemeTailChar, Bool.or_eq_true] at h
  rcases h with h | h
  · exact pySpace_false_of_pred isLowerAlpha c h
      (by decide) (by decide) (by decide) (by decide) (by decide) (by decide)
  · exact pySpace_false_of_isDigit c h

theorem breakColon_append : ∀ xs r : List Char, ':' ∉ xs →
    breakColon (xs ++ ':' :: r) = some (xs, r) := by
  intro xs
  induction xs with
  | nil =>
    intro r _
    show breakColon (':' :: r) = some ([], r)
    simp [breakColon]
  | cons c cs ih =>
    intro r h
    have hc : ¬ (c = ':') := fun he => h (he ▸ List.mem_cons_self c cs)
    show breakColon (c :: (cs ++ ':' :: r)) = some (c :: cs, r)
    simp only [breakColon, if_neg hc, ih r fun hm => h (List.mem_cons_of_mem c hm)]

theorem afterLastAt_eq_self (s : List Char) (h : '@' ∉ s) : afterLastAt s = s := by
  unfold afterLastAt
  rw [List.takeWhile_eq_self_iff.mpr, List.reverse_reverse]
  intro x hx
  simp only [decide_eq_true_eq]
  exact fun he => h (he ▸ List.mem_reverse.mp hx)

theorem urlStr_assoc (scheme host : List Char) (p : Nat) :
    urlStr scheme host p
      = scheme ++ ':' :: ('/' :: '/' :: (host ++ ':' :: natChars p)) := by
  unfold urlStr
  rw [show chars "://" = [':', '/', '/'] from rfl]
  simp [List.append_assoc]

theorem mem_urlStr (scheme host : List Char) (p : Nat) (x : Char)
    (hx : x ∈ urlStr scheme host p) :
    x ∈ scheme ∨ x = ':' ∨ x = '/' ∨ x ∈ host ∨ x ∈ natChars p := by
  rw [urlStr_assoc] at hx
  rcases List.mem_append.mp hx with hx | hx
  · exact Or.inl hx
  · rcases List.mem_cons.mp hx with rfl | hx
    · exact Or.inr (Or.inl rfl)
    · rcases List.mem_cons.mp hx with rfl | hx
      · exact Or.inr (Or.inr (Or.inl rfl))
      · rcases List.mem_cons.mp hx with rfl | hx
        · exact Or.inr (Or.inr (Or.inl rfl))
        · rcases List.mem_append.mp hx with hx | hx
          · exact Or.inr (Or.inr (Or.inr (Or.inl hx)))
          · rcases List.mem_cons.mp hx with rfl | hx
            · exact Or.inr (Or.inl rfl)
            · exact Or.inr (Or.inr (Or.inr (Or.inr hx)))

theorem pyUrlparse_urlStr (scheme host : List Char) (p : Nat)
    (hsne : scheme ≠ []) (hshead : scheme.head?.any isLowerAlpha = true)
    (hsch : ∀ c ∈ scheme, schemeTailChar c = true)
    (hhne : host ≠ []) (hhost : ∀ c ∈ host, hostChar c = true)
    (hp2 : p ≤ 65535) :
    pyUrlparse (urlStr scheme host p)
      = { scheme := scheme, hostname := some host, port := .ok (some p) } := by
  have hnc : ':' ∉ scheme := fun hm =>
    absurd (hsch ':' hm) (by decide)
  have hbreak : breakColon (urlStr scheme host p)
      = some (scheme, '/' :: '/' :: (host ++ ':' :: natChars p)) := by
    rw [urlStr_assoc]
    exact breakColon_append scheme _ hnc
  have hhead : scheme.head?.any isAsciiAlpha = true := by
    cases scheme with
    | nil => exact absurd rfl hsne
    | cons c cs =>
      simp only [List.head?, Option.any_some] at hshead ⊢
      exact isAsciiAlpha_of_lower c hshead
  have hall : scheme.all schemeChar = true :=
    List.all_eq_true.mpr fun c hc => schemeChar_of_tail c (hsch c hc)
  have hlower : scheme.map Char.toLower = scheme := by
    rw [List.map_congr_left fun c hc => toLower_eq_self_of_tail c (hsch c hc)]
    exact List.map_id' scheme
  have hhostlower : host.map Char.toLower = host := by
    rw [List.map_congr_left fun c hc => toLower_eq_self_of_hostChar c (hhost c hc)]
    exact List.map_id' host
  unfold pyUrlparse
  rw [hbreak]
  dsimp only
  rw [if_pos (show scheme ≠ [] ∧ scheme.head?.any isAsciiAlpha = true
        ∧ scheme.all schemeChar = true from ⟨hsne, hhead, hall⟩), hlower]
  dsimp only
  rw [show startsWithChars (chars "//") ('/' :: '/' :: (host ++ ':' :: natChars p)) = true
    from rfl]
  dsimp only [List.drop]
  rw [if_pos rfl]
  have hnetloc : (host ++ ':' :: natChars p).takeWhile
      (fun c => ¬ (c = '/' ∨ c = '?' ∨ c = '#')) = host ++ ':' :: natChars p := by
    rw [List.takeWhile_eq_self_iff]
    intro x hx
    simp only [decide_eq_true_eq]
    rcases List.mem_append.mp hx with hx | hx
    · have h := hhost x hx
      rintro (rfl | rfl | rfl) <;> exact absurd h (by decide)
    · rcases List.mem_cons.mp hx with rfl | hx
      · rintro (h | h | h) <;> cases h
      · have h := isDigit_of_mem_natChars p x hx
        rintro (rfl | rfl | rfl) <;> exact absurd h (by decide)
  rw [hnetloc]
  have hat : '@' ∉ host ++ ':' :: natChars p := by
    intro hm
    rcases List.mem_append.mp hm with hm | hm
    · exact absurd (hhost '@' hm) (by decide)
    · rcases List.mem_cons.mp hm with he | hm
      · cases he
      · exact absurd (isDigit_of_mem_natChars p '@' hm) (by decide)
  rw [afterLastAt_eq_self _ hat]
  have hbr : ¬ ('[' ∈ host ++ ':' :: natChars p ∨ ']' ∈ host ++ ':' :: natChars p) := by
    rintro (hm | hm) <;>
    · rcases List.mem_append.mp hm with hm | hm
      · first
        | exact absurd (hhost '[' hm) (by decide)
        | exact absurd (hhost ']' hm) (by decide)
      · rcases List.mem_cons.mp hm with he | hm
        · cases he
        · first
          | exact absurd (isDigit_of_mem_natChars p '[' hm) (by decide)
          | exact absurd (isDigit_of_mem_natChars p ']' hm) (by decide)
  rw [if_neg hbr]
  have hhtake : (host ++ ':' :: natChars p).takeWhile (· ≠ ':') = host := by
    rw [List.takeWhile_append_of_pos fun c hc => by
        simp only [decide_eq_true_eq]
        exact pred_ne hostChar c ':' (hhost c hc) (by decide),
      List.takeWhile_cons_of_neg (by simp)]
    exact List.append_nil host
  have hhdrop : (host ++ ':' :: natChars p).dropWhile (· ≠ ':') = ':' :: natChars p := by
    rw [List.dropWhile_append_of_pos fun c hc => by
        simp only [decide_eq_true_eq]
        exact pred_ne hostChar c ':' (hhost c hc) (by decide),
      List.dropWhile_cons_of_neg (by simp)]
  rw [hhtake, hhdrop, if_neg hhne]
  dsimp only
  rw [if_neg (by simpa using natChars_ne_nil p),
    if_pos (List.all_eq_true.mpr (isDigit_of_mem_natChars p)),
    if_pos (by rwa [natOfDigits_natChars]), hhostlower, natOfDigits_natChars]

/-- C4: on `scheme://host:port` (lowercase scheme, well-formed lowercase
host, decimal port in range), `parse_proxy_url` returns `(host, port,
scheme)` when the scheme is one of http, https, socks4, socks5, and no
match for any other scheme. -/
theorem parse_scheme_url (scheme host : List Char) (p : Nat)
    (hsne : scheme ≠ []) (hshead : scheme.head?.any isLowerAlpha = true)
    (hsch : ∀ c ∈ scheme, schemeTailChar c = true)
    (hhne : host ≠ []) (hhost : ∀ c ∈ host, hostChar c = true)
    (hp1 : 1 ≤ p) (hp2 : p ≤ 65535) :
    parse_proxy_url (urlStr scheme host p)
      = if scheme ∈ acceptedSchemes then some (host, natChars p, scheme) else none := by
  have hstrip : pyStrip (urlStr scheme host p) = urlStr scheme host p := by
    apply pyStrip_eq_self
    intro x hx
    rcases mem_urlStr scheme host p x hx with hx | rfl | rfl | hx | hx
    · exact pySpace_false_of_tail x (hsch x hx)
    · decide
    · decide
    · exact pySpace_false_of_pred hostChar x (hhost x hx)
        (by decide) (by decide) (by decide) (by decide) (by decide) (by decide)
    · exact pySpace_false_of_isDigit x (isDigit_of_mem_natChars p x hx)
  have hne : urlStr scheme host p ≠ [] := by
    rw [urlStr_assoc]
    cases scheme with
    | nil => exact absurd rfl hsne
    | cons c cs => simp
  have hcontains : containsSub (chars "://") (urlStr scheme host p) = true := by
    have hform : urlStr scheme host p
        = scheme ++ chars "://" ++ (host ++ ':' :: natChars p) := by
      unfold urlStr
      simp [List.append_assoc]
    rw [hform]
    exact containsSub_append_self (chars "://") scheme (host ++ ':' :: natChars p)
  have hlower : scheme.map Char.toLower = scheme := by
    rw [List.map_congr_left fun c hc => toLower_eq_self_of_tail c (hsch c hc)]
    exact List.map_id' scheme
  unfold parse_proxy_url
  rw [hstrip, if_neg hne, hcontains, if_pos rfl,
    pyUrlparse_urlStr scheme host p hsne hshead hsch hhne hhost hp2]
  dsimp only
  rw [if_pos (show p ≠ 0 by omega), hlower]
  by_cases hin : scheme ∈ acceptedSchemes
  · rw [if_pos hin]
  · rw [if_neg hin]
    dsimp only
    cases scheme with
    | nil => exact absurd rfl hsne
    | cons c cs =>
      have hclower : isLowerAlpha c = true := by
        simpa only [List.head?, Option.any_some] using hshead
      have hd : Char.isDigit c = false := isDigit_false_of_lower c hclower
      have hspan : spanDigits (urlStr (c :: cs) host p)
          = ([], urlStr (c :: cs) host p) := by
        rw [urlStr_assoc]
        show spanDigits (c :: (cs ++ ':' :: _)) = _
        unfold spanDigits
        rw [List.takeWhile_cons_of_neg (by simp [hd]),
          List.dropWhile_cons_of_neg (by simp [hd])]
        rw [List.cons_append]
      unfold ipPortMatch
      rw [hspan]
      dsimp only
      rw [if_neg (by simp)]

/-- Concrete instantiations of `parse_scheme_url`: an accepted scheme
matches, an unrecognized one does not. -/
theorem parse_scheme_url_witness :
    (parse_proxy_url (urlStr (chars "socks4") (chars "proxy.example.com") 1080)
      = if (chars "socks4") ∈ acceptedSchemes
        then some (chars "proxy.example.com", natChars 1080, chars "socks4") else none)
    ∧ (parse_proxy_url (urlStr (chars "ftp") (chars "proxy.example.com") 21)
      = if (chars "ftp") ∈ acceptedSchemes
        then some (chars "proxy.example.com", natChars 21, chars "ftp") else none) :=
  ⟨parse_scheme_url (chars "socks4") (chars "proxy.example.com") 1080
      (by decide) (by decide) (by decide) (by decide) (by decide) (by decide) (by decide),
   parse_scheme_url (chars "ftp") (chars "proxy.example.com") 21
      (by decide) (by decide) (by decide) (by decide) (by decide) (by decide) (by decide)⟩

end ProxyChecker
